import Mathlib

/-!
Verification of the card/extension product core.

Shallow embedding of the repository's core algorithms:

* `time_utils.py` / the calendar part of `engine.py` — business-day stepping
  over a fixed holiday set;
* `engine.py` (`KeepCardSimulator`) — transaction ledger, running balance,
  statement generation and balance-due calculations;
* `extension.py` (`ExtensionProduct`, `ExtensionFactory`) — installment
  amortization and the payment waterfall.

Modelling conventions:

* Dates are day ordinals (`ℕ`): the number of days since 0000-03-01 in the
  proleptic Gregorian calendar, so that `+ 1` is "next day" and `≤` agrees
  with Python's ordering of `datetime.date` values.  `daysFromCivil` /
  `civilFromDays` convert between ordinals and (year, month, day) triples
  (valid for year ≥ 1, which covers every date the program handles).
* Python `float` amounts (engine) and `decimal.Decimal` amounts (extension)
  are both modelled as `ℚ`.  `Decimal.quantize(Decimal('0.01'))` (banker's
  rounding) is modelled exactly by `quantize2`.  Decimal division is
  modelled as exact rational division (ties at the 28th significant digit
  cannot affect any cent-level statement proved here); division by zero is
  the `ℚ` convention `x / 0 = 0`.
* Random UUIDs and display-only fields are not modelled; no claim touches
  them.
-/

namespace CardProduct

-- Batteries marks the `Rat` arithmetic operations `@[irreducible]`, which
-- prevents `decide` from evaluating concrete rational computations.  Restore
-- the default reducibility so concrete witnesses and counterexamples can be
-- checked by `decide`; proofs and kernel semantics are unaffected.
set_option allowUnsafeReducibility true in
attribute [semireducible] Rat.add Rat.sub Rat.mul Rat.inv Rat.ofScientific

/-! ## Calendar: civil dates and ordinals -/

/-- A (year, month, day) triple, as produced by `datetime.date`. -/
structure Ymd where
  year : ℕ
  month : ℕ
  day : ℕ
deriving DecidableEq, Repr

/-- Days since 0000-03-01 of the civil date `(y, m, d)` (proleptic Gregorian,
valid for `y ≥ 1`).  Standard days-from-civil algorithm. -/
def daysFromCivil (y m d : ℕ) : ℕ :=
  let y1 := if m ≤ 2 then y - 1 else y
  let era := y1 / 400
  let yoe := y1 - era * 400
  let mp := if 2 < m then m - 3 else m + 9
  let doy := (153 * mp + 2) / 5 + d - 1
  let doe := yoe * 365 + yoe / 4 - yoe / 100 + doy
  era * 146097 + doe

/-- Inverse of `daysFromCivil`: the civil date of a day ordinal. -/
def civilFromDays (z : ℕ) : Ymd :=
  let era := z / 146097
  let doe := z % 146097
  let yoe := (doe - doe / 1460 + doe / 36524 - doe / 146096) / 365
  let doy := doe - (365 * yoe + yoe / 4 - yoe / 100)
  let mp := (5 * doy + 2) / 153
  let d := doy - (153 * mp + 2) / 5 + 1
  let m := if mp < 10 then mp + 3 else mp - 9
  ⟨yoe + era * 400 + (if m ≤ 2 then 1 else 0), m, d⟩

/-- Shorthand for building a date ordinal. -/
def mkDate (y m d : ℕ) : ℕ := daysFromCivil y m d

/-- `date.weekday()` in Python: Monday = 0, …, Sunday = 6.
0000-03-01 was a Wednesday, hence the offset 2. -/
def weekday (o : ℕ) : ℕ := (o + 2) % 7

/-- Whether year `y` is a Gregorian leap year (as in the source's
`_add_months` day table). -/
def isLeapYear (y : ℕ) : Bool := y % 4 = 0 && (y % 100 ≠ 0 || y % 400 = 0)

/-- Number of days of month `m` in year `y` (the source's literal day table). -/
def daysInMonth (y m : ℕ) : ℕ :=
  if m = 2 then (if isLeapYear y then 29 else 28)
  else if m = 4 ∨ m = 6 ∨ m = 9 ∨ m = 11 then 30
  else 31

/-- The fixed 2025 holiday list shared by `time_utils.holidays` and
`KeepCardSimulator.__init__`. -/
def holidays : List ℕ :=
  [mkDate 2025 1 1, mkDate 2025 4 18, mkDate 2025 5 19, mkDate 2025 7 1,
   mkDate 2025 8 4, mkDate 2025 9 1, mkDate 2025 10 13, mkDate 2025 11 11,
   mkDate 2025 12 25, mkDate 2025 12 26]

/-- `KeepCardSimulator.is_business_day`: a weekday that is not a holiday. -/
def isBusinessDay (o : ℕ) : Prop := weekday o < 5 ∧ o ∉ holidays

instance (o : ℕ) : Decidable (isBusinessDay o) := by
  unfold isBusinessDay; infer_instance

/-- No three distinct holidays fit in a window of 7 consecutive days
(the only close pair is Dec 25 / Dec 26). -/
theorem holidays_spread :
    ∀ x ∈ holidays, ∀ y ∈ holidays, ∀ z ∈ holidays,
      x < y → y < z → 6 < z - x := by decide

theorem weekday_shift (o k : ℕ) : weekday (o + k) = (weekday o + k) % 7 := by
  unfold weekday; omega

/-- In any 7 consecutive days there is a business day. -/
theorem exists_businessDay_in_week (o : ℕ) :
    ∃ k, k < 7 ∧ isBusinessDay (o + 1 + k) := by
  by_contra hno
  push_neg at hno
  have hmem : ∀ k, k < 7 → weekday (o + 1 + k) < 5 → o + 1 + k ∈ holidays := by
    intro k hk hw
    have := hno k hk
    unfold isBusinessDay at this
    by_contra hmem
    exact this ⟨hw, hmem⟩
  have hsh : ∀ k, weekday (o + 1 + k) = (weekday (o + 1) + k) % 7 := by
    intro k; exact weekday_shift (o + 1) k
  have hr : weekday (o + 1) < 7 := by unfold weekday; omega
  -- pick three weekday offsets within the window, depending on the weekday
  -- of o + 1; three holidays within diameter ≤ 6 contradict holidays_spread
  have pick : ∀ a b c : ℕ, a < b → b < c → c < 7 →
      weekday (o + 1 + a) < 5 → weekday (o + 1 + b) < 5 →
      weekday (o + 1 + c) < 5 → False := by
    intro a b c hab hbc hc7 hwa hwb hwc
    have ha := hmem a (by omega) hwa
    have hb := hmem b (by omega) hwb
    have hc := hmem c (by omega) hwc
    have := holidays_spread _ ha _ hb _ hc (by omega) (by omega)
    omega
  interval_cases h : weekday (o + 1)
  · exact pick 0 1 2 (by omega) (by omega) (by omega)
      (by rw [hsh]; decide) (by rw [hsh]; decide) (by rw [hsh]; decide)
  · exact pick 0 1 2 (by omega) (by omega) (by omega)
      (by rw [hsh]; decide) (by rw [hsh]; decide) (by rw [hsh]; decide)
  · exact pick 0 1 2 (by omega) (by omega) (by omega)
      (by rw [hsh]; decide) (by rw [hsh]; decide) (by rw [hsh]; decide)
  · exact pick 0 1 4 (by omega) (by omega) (by omega)
      (by rw [hsh]; decide) (by rw [hsh]; decide) (by rw [hsh]; decide)
  · exact pick 0 3 4 (by omega) (by omega) (by omega)
      (by rw [hsh]; decide) (by rw [hsh]; decide) (by rw [hsh]; decide)
  · exact pick 2 3 4 (by omega) (by omega) (by omega)
      (by rw [hsh]; decide) (by rw [hsh]; decide) (by rw [hsh]; decide)
  · exact pick 1 2 3 (by omega) (by omega) (by omega)
      (by rw [hsh]; decide) (by rw [hsh]; decide) (by rw [hsh]; decide)

/-- Bounded forward search for the next business day; 7 days of fuel always
suffice by `exists_businessDay_in_week`. -/
def searchBusinessDay : ℕ → ℕ → ℕ
  | o, 0 => o + 1
  | o, fuel + 1 => if isBusinessDay (o + 1) then o + 1 else searchBusinessDay (o + 1) fuel

/-- `KeepCardSimulator.get_next_business_day`: advance one day at a time until
a business day is reached. -/
def getNextBusinessDay (o : ℕ) : ℕ := searchBusinessDay o 7

theorem searchBusinessDay_eq {o b fuel : ℕ} (hlt : o < b) (hle : b ≤ o + fuel)
    (hb : isBusinessDay b) (hmin : ∀ x, o < x → x < b → ¬ isBusinessDay x) :
    searchBusinessDay o fuel = b := by
  induction fuel generalizing o with
  | zero => omega
  | succ fuel ih =>
    unfold searchBusinessDay
    by_cases h1 : isBusinessDay (o + 1)
    · have : b = o + 1 := by
        by_contra hne
        exact hmin (o + 1) (by omega) (by omega) h1
      simp [h1, this]
    · have hne : b ≠ o + 1 := fun h => h1 (h ▸ hb)
      rw [if_neg h1]
      exact ih (by omega) (by omega) (fun x hx1 hx2 => hmin x (by omega) hx2)

/-- The characterization of `getNextBusinessDay`: it is the least business day
strictly after `o`, and it lies within 7 days. -/
theorem getNextBusinessDay_spec (o : ℕ) :
    o < getNextBusinessDay o ∧ getNextBusinessDay o ≤ o + 7 ∧
    isBusinessDay (getNextBusinessDay o) ∧
    ∀ x, o < x → x < getNextBusinessDay o → ¬ isBusinessDay x := by
  have hex : ∃ k, isBusinessDay (o + 1 + k) := by
    obtain ⟨k, _, hk⟩ := exists_businessDay_in_week o
    exact ⟨k, hk⟩
  classical
  set k0 := Nat.find hex with hk0
  have hspec : isBusinessDay (o + 1 + k0) := Nat.find_spec hex
  have hmin : ∀ x, o < x → x < o + 1 + k0 → ¬ isBusinessDay x := by
    intro x hx1 hx2 hbx
    have hklt : x - (o + 1) < k0 := by omega
    refine Nat.find_min hex hklt ?_
    have hx : o + 1 + (x - (o + 1)) = x := by omega
    rw [hx]; exact hbx
  have hk7 : k0 < 7 := by
    obtain ⟨k, hk7, hk⟩ := exists_businessDay_in_week o
    have := Nat.find_min' hex hk
    omega
  have heq : getNextBusinessDay o = o + 1 + k0 :=
    searchBusinessDay_eq (by omega) (by omega) hspec hmin
  refine ⟨by omega, by omega, heq ▸ hspec, ?_⟩
  intro x hx1 hx2
  rw [heq] at hx2
  exact hmin x hx1 hx2

theorem getNextBusinessDay_gt (o : ℕ) : o < getNextBusinessDay o :=
  (getNextBusinessDay_spec o).1

theorem getNextBusinessDay_le (o : ℕ) : getNextBusinessDay o ≤ o + 7 :=
  (getNextBusinessDay_spec o).2.1

theorem getNextBusinessDay_isBusinessDay (o : ℕ) :
    isBusinessDay (getNextBusinessDay o) := (getNextBusinessDay_spec o).2.2.1

theorem getNextBusinessDay_min (o : ℕ) :
    ∀ x, o < x → x < getNextBusinessDay o → ¬ isBusinessDay x :=
  (getNextBusinessDay_spec o).2.2.2

theorem getNextBusinessDay_step_business {o : ℕ} (h : isBusinessDay (o + 1)) :
    getNextBusinessDay o = o + 1 := by
  have := getNextBusinessDay_spec o
  by_contra hne
  exact this.2.2.2 (o + 1) (by omega) (by omega) h

theorem getNextBusinessDay_step_skip {o : ℕ} (h : ¬ isBusinessDay (o + 1)) :
    getNextBusinessDay o = getNextBusinessDay (o + 1) := by
  have h1 := getNextBusinessDay_spec o
  have h2 := getNextBusinessDay_spec (o + 1)
  have hne : getNextBusinessDay o ≠ o + 1 := fun he => h (he ▸ h1.2.2.1)
  have hgt : o + 1 < getNextBusinessDay o := by omega
  by_contra hne2
  rcases Nat.lt_or_ge (getNextBusinessDay o) (getNextBusinessDay (o + 1)) with hlt | hge
  · exact h2.2.2.2 _ hgt hlt h1.2.2.1
  · have hlt2 : getNextBusinessDay (o + 1) < getNextBusinessDay o := by omega
    exact h1.2.2.2 _ (by omega) hlt2 h2.2.2.1

/-- `time_utils.add_business_days`: advance one day at a time, decrementing the
counter only on business days, until the counter reaches zero. -/
def addBusinessDays (o : ℕ) (n : ℕ) : ℕ :=
  if n = 0 then o
  else if isBusinessDay (o + 1) then addBusinessDays (o + 1) (n - 1)
  else addBusinessDays (o + 1) n
termination_by 8 * n + (getNextBusinessDay o - o)
decreasing_by
  · have h1 := getNextBusinessDay_le (o + 1)
    have h3 := getNextBusinessDay_gt (o + 1)
    omega
  · have h1 := getNextBusinessDay_step_skip (by assumption)
    have h3 := getNextBusinessDay_gt (o + 1)
    omega

theorem addBusinessDays_zero (o : ℕ) : addBusinessDays o 0 = o := by
  unfold addBusinessDays; simp

/-- One business-day step of the counting loop lands on the next business day. -/
theorem addBusinessDays_succ (o n : ℕ) :
    addBusinessDays o (n + 1) = addBusinessDays (getNextBusinessDay o) n := by
  have hgap : getNextBusinessDay o - o ≤ 7 := by
    have := getNextBusinessDay_le o; omega
  generalize hg : getNextBusinessDay o - o = g at hgap
  induction g using Nat.strong_induction_on generalizing o with
  | _ g ih =>
    conv_lhs => rw [addBusinessDays]
    rw [if_neg (Nat.succ_ne_zero n)]
    by_cases h1 : isBusinessDay (o + 1)
    · rw [if_pos h1, getNextBusinessDay_step_business h1]
      simp
    · rw [if_neg h1]
      have hstep := getNextBusinessDay_step_skip h1
      have hgt := getNextBusinessDay_gt o
      have hne : getNextBusinessDay o ≠ o + 1 := fun he => h1 (he ▸ getNextBusinessDay_isBusinessDay o)
      have hgap2 : getNextBusinessDay (o + 1) - (o + 1) = g - 1 := by omega
      have hrec := ih (g - 1) (by omega) (o + 1) hgap2 (by omega)
      rw [hrec, hstep]

/-- Stepping a single business day is exactly `get_next_business_day`. -/
theorem addBusinessDays_one (o : ℕ) : addBusinessDays o 1 = getNextBusinessDay o := by
  rw [addBusinessDays_succ, addBusinessDays_zero]

/-! ## Transaction ledger (`engine.py`, `KeepCardSimulator`) -/

inductive TxKind where
  | PURCHASE
  | REFUND
  | PAYMENT
  | PAYMENT_REVERSAL
  | EXTENSION
deriving DecidableEq, Repr

inductive TxDirection where
  | CREDIT
  | DEBIT
deriving DecidableEq, Repr

/-- `add_transaction`: PAYMENT, REFUND and EXTENSION post as credits, every
other kind as a debit. -/
def TxKind.direction : TxKind → TxDirection
  | .PAYMENT => .CREDIT
  | .REFUND => .CREDIT
  | .EXTENSION => .CREDIT
  | _ => .DEBIT

/-- A ledger row; the random UUID id column is not modelled (no logic reads
it). `balance` is the running balance, recomputed on every append. -/
structure Txn where
  kind : TxKind
  direction : TxDirection
  amount : ℚ
  effectiveDate : ℕ
  createdAt : ℕ
  balance : ℚ
deriving DecidableEq, Repr

/-- Position of a kind in the ordered categorical sort key
`['EXTENSION', 'PAYMENT', 'PURCHASE']` used by `add_transaction`.  Kinds
outside the list (REFUND, PAYMENT_REVERSAL) become missing values in the
categorical, and pandas places missing values last (`na_position='last'`),
hence rank 3. -/
def kindRank : TxKind → ℕ
  | .EXTENSION => 0
  | .PAYMENT => 1
  | .PURCHASE => 2
  | _ => 3

/-- The lexicographic sort key `(effective_date, type)` of `add_transaction`. -/
def txKey (t : Txn) : ℕ × ℕ := (t.effectiveDate, kindRank t.kind)

def keyLt (a b : ℕ × ℕ) : Prop := a.1 < b.1 ∨ (a.1 = b.1 ∧ a.2 < b.2)

def keyLe (a b : ℕ × ℕ) : Prop := a.1 < b.1 ∨ (a.1 = b.1 ∧ a.2 ≤ b.2)

instance (a b : ℕ × ℕ) : Decidable (keyLt a b) := by unfold keyLt; infer_instance

instance (a b : ℕ × ℕ) : Decidable (keyLe a b) := by unfold keyLe; infer_instance

/-- Stable insertion of a row: the new row goes after every row whose key is
equal or smaller, as in pandas' stable lexicographic sort. -/
def insertTxn (t : Txn) : List Txn → List Txn
  | [] => [t]
  | h :: rest => if keyLt (txKey t) (txKey h) then t :: h :: rest else h :: insertTxn t rest

/-- The ledger re-sort of `add_transaction`: stable sort by
`(effective_date, kind rank)` (insertion sort, which is stable). -/
def sortTxns (l : List Txn) : List Txn := l.foldl (fun acc t => insertTxn t acc) []

/-- `_recalculate_balance`: walk the sorted rows accumulating
`balance += amount` for debits and `balance -= amount` for credits. -/
def recalcBalanceAux : ℚ → List Txn → List Txn
  | _, [] => []
  | bal, t :: rest =>
    let bal2 := match t.direction with
      | .DEBIT => bal + t.amount
      | .CREDIT => bal - t.amount
    { t with balance := bal2 } :: recalcBalanceAux bal2 rest

def recalcBalance (l : List Txn) : List Txn := recalcBalanceAux 0 l

/-- A statement row.  Closed statements carry `some` aggregates; the trailing
open statement carries `none` (Python `None`), exactly as in
`_generate_statements`.  The per-statement transaction slice is display-only
and not modelled. -/
structure Stmt where
  startDate : ℕ
  endDate : ℕ
  dueDate : ℕ
  beginningBalance : ℚ
  endingBalance : Option ℚ
  purchasesAmount : Option ℚ
  refundsAmount : Option ℚ
  paymentsAmount : Option ℚ
  extensionsAmount : Option ℚ
  balanceDue : ℚ
deriving DecidableEq, Repr

/-- Sum of the amounts of the transactions of kind `k` effective in
`[lo, hi]` (the per-kind statement aggregates of `_generate_statements`). -/
def sumKindInPeriod (txs : List Txn) (k : TxKind) (lo hi : ℕ) : ℚ :=
  (((txs.filter fun t => decide (lo ≤ t.effectiveDate ∧ t.effectiveDate ≤ hi)).filter
      fun t => decide (t.kind = k)).map fun t => t.amount).sum

/-- The start of the cycle after the one starting at `cur`
(`_generate_statements` lines 560-580): the same day-of-month in the next
month, falling back to the last day of that month when the anchor day does
not exist in it (Python's `except ValueError` branch). -/
def nextCycleStart (cycleStart cur : ℕ) : ℕ :=
  let c := civilFromDays cur
  if c.month = 12 then daysFromCivil (c.year + 1) 1 cycleStart
  else
    let nm := c.month + 1
    if cycleStart ≤ daysInMonth c.year nm then daysFromCivil c.year nm cycleStart
    else if nm = 12 then daysFromCivil (c.year + 1) 1 1 - 1
    else daysFromCivil c.year (nm + 1) 1 - 1

/-- End date of the trailing open statement (`_generate_statements`
lines 638-651, including the unreachable inner December branch). -/
def openEnd (cycleStart ns : ℕ) : ℕ :=
  let c := civilFromDays ns
  if c.month = 12 then daysFromCivil (c.year + 1) 1 cycleStart - 1
  else
    let nm := c.month + 1
    if cycleStart ≤ daysInMonth c.year nm then daysFromCivil c.year nm cycleStart - 1
    else if c.month = 12 then daysFromCivil (c.year + 1) 1 1 - 1
    else daysFromCivil c.year (c.month + 2) 1 - 1

/-- First cycle start (`_generate_statements` lines 533-553): the anchor day
in the month of the earliest transaction or the month before, then one more
month back if the candidate still lies after the earliest transaction. -/
def initialCycleStart (cycleStart minDate : ℕ) : ℕ :=
  let c := civilFromDays minDate
  let s1 :=
    if c.day < cycleStart then daysFromCivil c.year c.month cycleStart
    else if c.month = 1 then daysFromCivil (c.year - 1) 12 cycleStart
    else daysFromCivil c.year (c.month - 1) cycleStart
  if minDate < s1 then
    let c1 := civilFromDays s1
    if c1.month = 1 then daysFromCivil (c1.year - 1) 12 cycleStart
    else daysFromCivil c1.year (c1.month - 1) cycleStart
  else s1

/-- Balance of the last ledger row strictly before `cur`, or 0
(first-statement beginning balance, `_generate_statements` lines 604-609). -/
def firstBeginning (txs : List Txn) (cur : ℕ) : ℚ :=
  match (txs.filter fun t => decide (t.effectiveDate < cur)).getLast? with
  | none => 0
  | some t => t.balance

/-- The closed-statement loop of `_generate_statements` (`while current_start
<= max_date`).  `fuel` bounds the number of iterations; the caller passes the
number of days in the range, which always suffices because each cycle
advances the start by at least one day.  Returns the closed statements and
the loop variable's final value (the open statement's start). -/
def genLoop (txs : List Txn) (cycleStart maxDate : ℕ) :
    ℕ → ℕ → Option ℚ → List Stmt × ℕ
  | 0, cur, _ => ([], cur)
  | fuel + 1, cur, prev =>
    if cur ≤ maxDate then
      let next := nextCycleStart cycleStart cur
      let endD := next - 1
      let p := sumKindInPeriod txs .PURCHASE cur endD
      let r := sumKindInPeriod txs .REFUND cur endD
      let pay := sumKindInPeriod txs .PAYMENT cur endD
      let ext := sumKindInPeriod txs .EXTENSION cur endD
      let beginning := match prev with
        | some b => b
        | none => firstBeginning txs cur
      let ending := beginning + p - r - pay - ext
      let stmt : Stmt :=
        ⟨cur, endD, getNextBusinessDay endD, beginning, some ending,
         some p, some r, some pay, some ext, 0⟩
      let rest := genLoop txs cycleStart maxDate fuel next (some ending)
      (stmt :: rest.1, rest.2)
    else ([], cur)

/-- The trailing open statement (`_generate_statements` lines 636-667). -/
def openStmt (cycleStart ns : ℕ) (lastEnding : ℚ) : Stmt :=
  ⟨ns, openEnd cycleStart ns, getNextBusinessDay (openEnd cycleStart ns),
   lastEnding, none, none, none, none, none, 0⟩

/-- The balance-due pass at the end of `_generate_statements` (lines
672-677): every statement except the first gets
`balance_due = 0 if beginning_balance < 0 else beginning_balance`. -/
def updateBalanceDueFrom : ℕ → List Stmt → List Stmt
  | _, [] => []
  | i, s :: rest =>
    (if i = 0 then s
     else { s with balanceDue := if s.beginningBalance < 0 then 0 else s.beginningBalance }) ::
    updateBalanceDueFrom (i + 1) rest

def updateBalanceDue (l : List Stmt) : List Stmt := updateBalanceDueFrom 0 l

/-- `if statement_list:` — append the trailing open statement, whose
beginning balance is the last closed statement's ending balance. -/
def appendOpenStmt (cycleStart ns : ℕ) (closed : List Stmt) : List Stmt :=
  match closed.getLast? with
  | some last => closed ++ [openStmt cycleStart ns (last.endingBalance.getD 0)]
  | none => closed

/-- `_generate_statements`. -/
def generateStatements (txs : List Txn) (cycleStart : ℕ) : List Stmt :=
  match txs with
  | [] => []
  | t0 :: ts =>
    let minD := (ts.map fun t => t.effectiveDate).foldl min t0.effectiveDate
    let maxD := (ts.map fun t => t.effectiveDate).foldl max t0.effectiveDate
    let start0 := initialCycleStart cycleStart minD
    let res := genLoop (t0 :: ts) cycleStart maxD (maxD + 1 - start0) start0 none
    updateBalanceDue (appendOpenStmt cycleStart res.2 res.1)

/-- The simulator state (`KeepCardSimulator`); the extension list lives in
the standalone extension module below and is not needed by any ledger
claim. -/
structure SimState where
  transactions : List Txn
  statements : List Stmt
  statementCycleStart : ℕ
deriving DecidableEq, Repr

/-- The freshly constructed simulator. -/
def SimState.init (cycleStart : ℕ) : SimState := ⟨[], [], cycleStart⟩

/-- `KeepCardSimulator.add_transaction`: build the row (direction derived
from the kind; there is no validation of the amount), append it, re-sort by
`(effective_date, kind rank)`, recompute the running balance, regenerate the
statements. -/
def addTransaction (st : SimState) (kind : TxKind) (amount : ℚ)
    (eff created : ℕ) : SimState :=
  let newTx : Txn := ⟨kind, kind.direction, amount, eff, created, 0⟩
  let balanced := recalcBalance (sortTxns (st.transactions ++ [newTx]))
  { st with
      transactions := balanced
      statements := generateStatements balanced st.statementCycleStart }

/-- The transaction-application loop of `calculate_period_balance_due`: fold
the PAYMENT and EXTENSION transactions effective in `[lo, hi]` over the
anchor; credits decrease it with a floor at 0, debits would increase it. -/
def balanceDueFold (txs : List Txn) (lo hi : ℕ) (anchor : ℚ) : ℚ :=
  (txs.filter fun t =>
      decide ((t.kind = .PAYMENT ∨ t.kind = .EXTENSION) ∧
        t.effectiveDate ≤ hi ∧ lo ≤ t.effectiveDate)).foldl
    (fun bd t => match t.direction with
      | .CREDIT => max 0 (bd - t.amount)
      | .DEBIT => bd + t.amount)
    anchor

/-- `calculate_period_balance_due`: anchor on the `balance_due` of the last
statement whose start is on or before `date`, then apply the PAYMENT and
EXTENSION transactions effective in `[anchor start, date]`.  (The
`statements.empty` early return is the `none` case of the empty filter.) -/
def calculatePeriodBalanceDue (st : SimState) (date : ℕ) : ℚ :=
  match (st.statements.filter fun s => decide (s.startDate ≤ date)).getLast? with
  | none => 0
  | some cur => balanceDueFold st.transactions cur.startDate date cur.balanceDue

/-! ## Extension product (`extension.py`) -/

/-- Round a rational to an integer, ties to even (`decimal.Decimal`'s default
`ROUND_HALF_EVEN`). -/
def roundHalfEven (x : ℚ) : ℤ :=
  let f := ⌊x⌋
  if x - f < 1 / 2 then f
  else if 1 / 2 < x - f then f + 1
  else if f % 2 = 0 then f else f + 1

/-- `Decimal.quantize(Decimal('0.01'))`: banker's rounding to cents. -/
def quantize2 (x : ℚ) : ℚ := (roundHalfEven (100 * x) : ℚ) / 100

/-- Python `int()` applied to a rational: truncation toward zero. -/
def pyInt (x : ℚ) : ℤ := if 0 ≤ x then ⌊x⌋ else -⌊-x⌋

/-- `ExtensionProduct._add_months`: month arithmetic with the day clamped to
the target month's length. -/
def addMonths (o : ℕ) (months : ℕ) : ℕ :=
  let c := civilFromDays o
  let m0 := c.month - 1 + months
  let y := c.year + m0 / 12
  let m := m0 % 12 + 1
  daysFromCivil y m (min c.day (daysInMonth y m))

/-- One row of the payment schedule DataFrame. -/
structure Installment where
  paymentNumber : ℕ
  paymentDate : ℕ
  paymentAmount : ℚ
  principalAmount : ℚ
  interestAmount : ℚ
  remainingPrincipal : ℚ
  remainingInterest : ℚ
  remainingAmount : ℚ
  paid : Bool
deriving DecidableEq, Repr

/-- The dict returned by `make_payment` and appended to `payments`. -/
structure PaymentRec where
  paymentDate : ℕ
  paymentAmount : ℚ
  principalPaid : ℚ
  interestPaid : ℚ
  remainingBalance : ℚ
deriving DecidableEq, Repr

structure ExtensionProduct where
  extensionId : String
  originalAmount : ℚ
  startDate : ℕ
  termMonths : ℕ
  apr : ℚ
  status : String
  totalInterest : ℚ
  monthlyPayment : ℚ
  paymentSchedule : List Installment
  payments : List PaymentRec
  currentBalance : ℚ
deriving DecidableEq, Repr

/-- One iteration of the schedule-building loop of `ExtensionProduct.__init__`:
the final month gets the remainder amounts, every other month the evenly
divided rounded amounts. -/
def scheduleRow (startDate term : ℕ)
    (monthlyPrincipal monthlyInterest principalRemainder interestRemainder : ℚ)
    (month : ℕ) : Installment :=
  let principal := if month = term then principalRemainder else monthlyPrincipal
  let interest := if month = term then interestRemainder else monthlyInterest
  Installment.mk month (addMonths startDate month) (principal + interest)
    principal interest principal interest (principal + interest) false

/-- `ExtensionProduct.__init__`: clamp the term to [1, 12], compute the flat
interest fee and the evenly divided schedule, rounding each non-final
installment to cents and letting the final installment absorb the rounding
remainders. -/
def createExtension (extensionId : String) (amount : ℚ) (startDate : ℕ)
    (termMonths : ℕ) (apr : ℚ) : ExtensionProduct :=
  let term := min (max 1 termMonths) 12
  let totalInterest := amount * (apr / 100) * ((term : ℚ) / 12)
  let monthlyPayment := (amount + totalInterest) / (term : ℚ)
  let monthlyPrincipal := quantize2 (amount / (term : ℚ))
  let monthlyInterest := quantize2 (totalInterest / (term : ℚ))
  let principalRemainder := amount - monthlyPrincipal * ((term - 1 : ℕ) : ℚ)
  let interestRemainder := totalInterest - monthlyInterest * ((term - 1 : ℕ) : ℚ)
  let schedule := (List.range term).map fun k =>
    scheduleRow startDate term monthlyPrincipal monthlyInterest
      principalRemainder interestRemainder (k + 1)
  ExtensionProduct.mk extensionId amount startDate term apr "ACTIVE"
    totalInterest monthlyPayment schedule [] amount

/-- Stable insertion by `payment_date` (pandas `sort_values` is stable for
equal keys). -/
def insertInstByDate (x : Installment) : List Installment → List Installment
  | [] => [x]
  | h :: rest =>
    if x.paymentDate < h.paymentDate then x :: h :: rest else h :: insertInstByDate x rest

def sortInstByDate (l : List Installment) : List Installment :=
  l.foldl (fun acc x => insertInstByDate x acc) []

/-- `get_past_due_installments`: unpaid installments strictly before the
payment date, sorted by due date. -/
def getPastDueInstallments (e : ExtensionProduct) (payDate : ℕ) : List Installment :=
  sortInstByDate (e.paymentSchedule.filter fun i =>
    decide (i.paymentDate < payDate ∧ i.paid = false))

/-- `get_past_due_amount`. -/
def getPastDueAmount (e : ExtensionProduct) (payDate : ℕ) : ℚ :=
  ((getPastDueInstallments e payDate).map fun i => i.remainingAmount).sum

/-- `get_next_installment`: the first row, in stable date order, among the
rows with `payment_date ≥ payment_date` — note: *paid rows are not filtered
out*.  Returns the row together with its position (`.name` in pandas). -/
def getNextInstallmentFrom (payDate : ℕ) : ℕ → List Installment → Option (ℕ × Installment)
  | _, [] => none
  | i, inst :: rest =>
    let r := getNextInstallmentFrom payDate (i + 1) rest
    if payDate ≤ inst.paymentDate then
      match r with
      | none => some (i, inst)
      | some (j, instj) =>
        if instj.paymentDate < inst.paymentDate then some (j, instj) else some (i, inst)
    else r

def getNextInstallment (payDate : ℕ) (sched : List Installment) : Option (ℕ × Installment) :=
  getNextInstallmentFrom payDate 0 sched

/-- The principal-then-interest application block that `make_payment`
repeats verbatim for the past-due loop (lines 158-183) and for the
current/next installment (lines 187-208): pay principal up to what remains,
then — only if funds are left — interest up to what remains; mark the row
paid once both remainders are ≤ 0; keep `remaining_amount` in sync.
Returns (updated row, remaining funds, principal paid, interest paid). -/
def payInstallment (inst : Installment) (funds : ℚ) : Installment × ℚ × ℚ × ℚ :=
  let principalPayment := min funds inst.remainingPrincipal
  let rp2 := quantize2 (inst.remainingPrincipal - principalPayment)
  let funds2 := funds - principalPayment
  let step2 :=
    if 0 < funds2 then
      let interestPayment := min funds2 inst.remainingInterest
      (quantize2 (inst.remainingInterest - interestPayment),
       funds2 - interestPayment, interestPayment)
    else (inst.remainingInterest, funds2, 0)
  let inst2 : Installment :=
    { inst with
        remainingPrincipal := rp2
        remainingInterest := step2.1
        paid := if rp2 ≤ 0 ∧ step2.1 ≤ 0 then true else inst.paid
        remainingAmount := quantize2 (step2.1 + rp2) }
  (inst2, step2.2.1, principalPayment, step2.2.2)

/-- Phase 1 of `make_payment` (past-due): walk the unpaid installments with
`payment_date < payment_date` in schedule order, paying principal first and
then interest, breaking once the funds are exhausted.  Returns
(schedule, funds, principal paid, interest paid). -/
def payPastDue (payDate : ℕ) : List Installment → ℚ → ℚ → ℚ →
    List Installment × ℚ × ℚ × ℚ
  | [], funds, tp, ti => ([], funds, tp, ti)
  | inst :: rest, funds, tp, ti =>
    if inst.paymentDate < payDate ∧ inst.paid = false then
      let stepr := payInstallment inst funds
      let funds3 := stepr.2.1
      let tp2 := tp + stepr.2.2.1
      let ti2 := ti + stepr.2.2.2
      if funds3 ≤ 0 then (stepr.1 :: rest, funds3, tp2, ti2)
      else
        let r := payPastDue payDate rest funds3 tp2 ti2
        (stepr.1 :: r.1, r.2.1, r.2.2.1, r.2.2.2)
    else
      let r := payPastDue payDate rest funds tp ti
      (inst :: r.1, r.2.1, r.2.2.1, r.2.2.2)

/-- Phase 2 of `make_payment` (current/next): `get_next_installment` picks
the earliest row dated on/after the payment date, paid or not; funds are
applied only when that row is unpaid and funds remain. -/
def payCurrentNext (payDate : ℕ) (sched : List Installment) (funds tp ti : ℚ) :
    List Installment × ℚ × ℚ × ℚ :=
  match getNextInstallment payDate sched with
  | none => (sched, funds, tp, ti)
  | some (idx, inst) =>
    if inst.paid = false ∧ 0 < funds then
      let stepr := payInstallment inst funds
      (sched.set idx stepr.1, stepr.2.1, tp + stepr.2.2.1, ti + stepr.2.2.2)
    else (sched, funds, tp, ti)

/-- The per-installment application step of phase 3: each future unpaid
installment receives `min(per_installment_principal, remaining_principal)`
against principal and `min(per_installment_interest, remaining_interest)` as
waived interest.  (This phase does not decrement the funds counter in the
source.) -/
def applyFuture (payDate : ℕ) (perP perI : ℚ) : List Installment → ℚ → ℚ →
    List Installment × ℚ × ℚ
  | [], tp, ti => ([], tp, ti)
  | inst :: rest, tp, ti =>
    if payDate < inst.paymentDate ∧ inst.paid = false then
      let principalPaid := min perP inst.remainingPrincipal
      let rp2 := quantize2 (inst.remainingPrincipal - principalPaid)
      let interestWaived := min perI inst.remainingInterest
      let ri2 := quantize2 (inst.remainingInterest - interestWaived)
      let inst2 : Installment :=
        { inst with
            remainingPrincipal := rp2
            remainingInterest := ri2
            paid := if rp2 ≤ 0 ∧ ri2 ≤ 0 then true else inst.paid
            remainingAmount := quantize2 (ri2 + rp2) }
      let r := applyFuture payDate perP perI rest (tp + principalPaid) (ti + interestWaived)
      (inst2 :: r.1, r.2.1, r.2.2)
    else
      let r := applyFuture payDate perP perI rest tp ti
      (inst :: r.1, r.2.1, r.2.2)

/-- Phase 3 of `make_payment` (future pro-ration): spread the leftover funds
evenly over all future unpaid installments, waiving interest in proportion to
the number of average installments covered.  Decimal division is modelled as
exact rational division (with the `ℚ` convention `x / 0 = 0`, whereas
`decimal` would raise on an all-zero principal average — no claim proved here
depends on that corner). -/
def payFuture (payDate : ℕ) (sched : List Installment) (funds tp ti : ℚ) :
    List Installment × ℚ × ℚ :=
  if 0 < funds then
    let future := sched.filter fun inst =>
      decide (payDate < inst.paymentDate ∧ inst.paid = false)
    if future.isEmpty then (sched, tp, ti)
    else
      let n : ℚ := (future.length : ℚ)
      let avgP := ((future.map fun i => i.remainingPrincipal).sum) / n
      let covered := pyInt (funds / avgP)
      let avgI := ((future.map fun i => i.remainingInterest).sum) / n
      let waived := avgI * (covered : ℚ)
      applyFuture payDate (funds / n) (waived / n) sched tp ti
  else (sched, tp, ti)

/-- `ExtensionProduct.make_payment`: the three-phase waterfall, followed by
the balance update, payment record and the ACTIVE→PAID transition. -/
def makePayment (e : ExtensionProduct) (amount : ℚ) (payDate : ℕ) :
    ExtensionProduct × PaymentRec :=
  let s1 := payPastDue payDate e.paymentSchedule amount 0 0
  let s2 := payCurrentNext payDate s1.1 s1.2.1 s1.2.2.1 s1.2.2.2
  let s3 := payFuture payDate s2.1 s2.2.1 s2.2.2.1 s2.2.2.2
  let cb := max 0 (e.currentBalance - s3.2.1)
  let pay : PaymentRec := ⟨payDate, amount, s3.2.1, s3.2.2, cb⟩
  ({ e with
      paymentSchedule := s3.1
      currentBalance := cb
      payments := e.payments ++ [pay]
      status := if s3.1.all fun i => i.paid then "PAID" else e.status }, pay)

/-! ## Extension registry (`ExtensionFactory`) -/

/-- One entry of the flat cross-extension candidate list built by
`_make_past_due_next_due_payment`.  In the source a candidate holds a
reference to its extension object; here it holds the extension's position in
the factory list.  (The `idx`/`remaining_principal`/`remaining_interest`
fields stored for past-due candidates are never read afterwards and are not
modelled.) -/
structure Candidate where
  extIdx : ℕ
  paymentDate : ℕ
  remainingAmount : ℚ
deriving DecidableEq, Repr

/-- Candidates of all ACTIVE extensions, in registration order: every
past-due unpaid installment, then the `get_next_installment` row (which may
be a paid row — its remaining amount is then 0). -/
def buildCandidatesFrom (payDate : ℕ) : ℕ → List ExtensionProduct → List Candidate
  | _, [] => []
  | i, e :: rest =>
    (if e.status = "ACTIVE" then
      ((getPastDueInstallments e payDate).map fun inst =>
        Candidate.mk i inst.paymentDate inst.remainingAmount) ++
      (match getNextInstallment payDate e.paymentSchedule with
       | none => []
       | some (_, inst) => [Candidate.mk i inst.paymentDate inst.remainingAmount])
     else []) ++ buildCandidatesFrom payDate (i + 1) rest

def insertCandByDate (x : Candidate) : List Candidate → List Candidate
  | [] => [x]
  | h :: rest =>
    if x.paymentDate < h.paymentDate then x :: h :: rest else h :: insertCandByDate x rest

/-- `all_installments.sort(key=lambda x: x['payment_date'])` — Python's sort
is stable. -/
def sortCandByDate (l : List Candidate) : List Candidate :=
  l.foldl (fun acc x => insertCandByDate x acc) []

/-- The allocation walk of `_make_past_due_next_due_payment`: stop when funds
are exhausted; otherwise pay `min(candidate remaining, funds)` into the
candidate's extension through its own `make_payment` and subtract the
payment's amount from the funds. -/
def allocWalk (payDate : ℕ) : List Candidate → List ExtensionProduct → ℚ →
    List PaymentRec → List ExtensionProduct × ℚ × List PaymentRec
  | [], exts, funds, made => (exts, funds, made)
  | c :: rest, exts, funds, made =>
    if funds ≤ 0 then (exts, funds, made)
    else
      match exts[c.extIdx]? with
      | none => allocWalk payDate rest exts funds made
      | some e =>
        let payAmt := min c.remainingAmount funds
        let r := makePayment e payAmt payDate
        allocWalk payDate rest (exts.set c.extIdx r.1) (funds - r.2.paymentAmount)
          (made ++ [r.2])

/-- The dict returned by `_make_past_due_next_due_payment`. -/
structure AllocationResult where
  paymentDate : ℕ
  totalAmount : ℚ
  payments : List PaymentRec
  remainingAmount : ℚ
deriving DecidableEq, Repr

/-- `ExtensionFactory._make_past_due_next_due_payment`: build the flat
candidate list over the current extensions, sort it by installment due date
(stably), then walk it.  Returns the updated extension list and the result
dict. -/
def makePastDueNextDuePayment (exts : List ExtensionProduct) (payDate : ℕ)
    (amount : ℚ) : List ExtensionProduct × AllocationResult :=
  let cands := sortCandByDate (buildCandidatesFrom payDate 0 exts)
  let r := allocWalk payDate cands exts amount []
  (r.1, ⟨payDate, amount, r.2.2, r.2.1⟩)

/-- The "full remaining balance" of an extension in the sense of claim C7:
the sum of `remaining_amount` over its unpaid installments. -/
def fullRemainingBalance (e : ExtensionProduct) : ℚ :=
  ((e.paymentSchedule.filter fun i => !i.paid).map fun i => i.remainingAmount).sum

/-! ## Supporting lemmas: ledger sort and lengths -/

theorem insertTxn_length (t : Txn) (l : List Txn) :
    (insertTxn t l).length = l.length + 1 := by
  induction l with
  | nil => rfl
  | cons h rest ih =>
    unfold insertTxn
    by_cases hlt : keyLt (txKey t) (txKey h)
    · simp [hlt]
    · simp [hlt, ih]

theorem sortTxns_length (l : List Txn) : (sortTxns l).length = l.length := by
  have haux : ∀ (l acc : List Txn),
      (l.foldl (fun a t => insertTxn t a) acc).length = acc.length + l.length := by
    intro l
    induction l with
    | nil => intro acc; simp
    | cons h rest ih =>
      intro acc
      simp only [List.foldl_cons]
      rw [ih, insertTxn_length, List.length_cons]
      omega
  unfold sortTxns
  rw [haux]
  simp

theorem recalcBalanceAux_length (b : ℚ) (l : List Txn) :
    (recalcBalanceAux b l).length = l.length := by
  induction l generalizing b with
  | nil => rfl
  | cons h rest ih => simp [recalcBalanceAux, ih]

theorem mem_insertTxn {x t : Txn} :
    ∀ {l : List Txn}, x ∈ insertTxn t l → x = t ∨ x ∈ l := by
  intro l
  induction l with
  | nil => intro h; simpa [insertTxn] using h
  | cons h0 rest ih =>
    intro h
    unfold insertTxn at h
    by_cases hlt : keyLt (txKey t) (txKey h0)
    · rw [if_pos hlt] at h
      rcases List.mem_cons.mp h with h | h
      · exact Or.inl h
      · exact Or.inr h
    · rw [if_neg hlt] at h
      rcases List.mem_cons.mp h with h | h
      · exact Or.inr (by simp [h])
      · rcases ih h with h | h
        · exact Or.inl h
        · exact Or.inr (by simp [h])

theorem keyLe_of_not_keyLt {a b : ℕ × ℕ} (h : ¬ keyLt a b) : keyLe b a := by
  unfold keyLt at h
  unfold keyLe
  omega

theorem keyLe_of_keyLt {a b : ℕ × ℕ} (h : keyLt a b) : keyLe a b := by
  unfold keyLt at h
  unfold keyLe
  omega

theorem keyLt_le_trans {a b c : ℕ × ℕ} (h1 : keyLt a b) (h2 : keyLe b c) : keyLe a c := by
  unfold keyLt at h1
  unfold keyLe at h2 ⊢
  omega

theorem keyLe_trans {a b c : ℕ × ℕ} (h1 : keyLe a b) (h2 : keyLe b c) : keyLe a c := by
  unfold keyLe at h1 h2 ⊢
  omega

/-- The pairwise ordering maintained by the ledger sort. -/
def txOrdered (a b : Txn) : Prop := keyLe (txKey a) (txKey b)

theorem pairwise_insertTxn {t : Txn} {l : List Txn} (h : l.Pairwise txOrdered) :
    (insertTxn t l).Pairwise txOrdered := by
  induction l with
  | nil => simp [insertTxn, List.Pairwise]
  | cons h0 rest ih =>
    rcases List.pairwise_cons.mp h with ⟨hhead, htail⟩
    unfold insertTxn
    by_cases hlt : keyLt (txKey t) (txKey h0)
    · rw [if_pos hlt]
      refine List.Pairwise.cons ?_ h
      intro y hy
      rcases List.mem_cons.mp hy with hy | hy
      · exact hy ▸ keyLe_of_keyLt hlt
      · exact keyLt_le_trans hlt (hhead y hy)
    · rw [if_neg hlt]
      refine List.Pairwise.cons ?_ (ih htail)
      intro y hy
      rcases mem_insertTxn hy with hy | hy
      · exact hy ▸ keyLe_of_not_keyLt hlt
      · exact hhead y hy

theorem sortTxns_pairwise (l : List Txn) : (sortTxns l).Pairwise txOrdered := by
  have haux : ∀ (l acc : List Txn), acc.Pairwise txOrdered →
      (l.foldl (fun a t => insertTxn t a) acc).Pairwise txOrdered := by
    intro l
    induction l with
    | nil => intro acc h; simpa using h
    | cons h0 rest ih =>
      intro acc hacc
      simp only [List.foldl_cons]
      exact ih _ (pairwise_insertTxn hacc)
  exact haux l [] (by simp)

theorem mem_recalcBalanceAux {y : Txn} :
    ∀ {b : ℚ} {l : List Txn}, y ∈ recalcBalanceAux b l → ∃ x ∈ l, txKey y = txKey x := by
  intro b l
  induction l generalizing b with
  | nil => intro h; simp [recalcBalanceAux] at h
  | cons h0 rest ih =>
    intro h
    simp only [recalcBalanceAux] at h
    rcases List.mem_cons.mp h with h | h
    · exact ⟨h0, by simp, by simp [h, txKey]⟩
    · rcases ih h with ⟨x, hx, hk⟩
      exact ⟨x, by simp [hx], hk⟩

theorem recalcBalanceAux_pairwise :
    ∀ {b : ℚ} {l : List Txn}, l.Pairwise txOrdered →
      (recalcBalanceAux b l).Pairwise txOrdered := by
  intro b l
  induction l generalizing b with
  | nil => intro _; simp [recalcBalanceAux]
  | cons h0 rest ih =>
    intro h
    rcases List.pairwise_cons.mp h with ⟨hhead, htail⟩
    simp only [recalcBalanceAux]
    refine List.Pairwise.cons ?_ (ih htail)
    intro y hy
    rcases mem_recalcBalanceAux hy with ⟨x, hx, hk⟩
    unfold txOrdered
    have : txKey { h0 with balance := _ } = txKey h0 := rfl
    rw [hk]
    exact hhead x hx

theorem recalcBalance_pairwise {l : List Txn} (h : l.Pairwise txOrdered) :
    (recalcBalance l).Pairwise txOrdered := recalcBalanceAux_pairwise h

theorem pairwise_get?_rel {R : Txn → Txn → Prop} :
    ∀ {l : List Txn}, l.Pairwise R → ∀ i j, i < j → ∀ a b,
      l.get? i = some a → l.get? j = some b → R a b := by
  intro l
  induction l with
  | nil => intro _ i j _ a b ha _; simp at ha
  | cons h0 rest ih =>
    intro h i j hij a b ha hb
    rcases List.pairwise_cons.mp h with ⟨hhead, htail⟩
    match i, j with
    | 0, j + 1 =>
      simp only [List.get?] at ha hb
      have hmem : b ∈ rest := List.get?_mem hb
      injection ha with hh
      exact hh ▸ hhead b hmem
    | i + 1, j + 1 =>
      simp only [List.get?] at ha hb
      exact ih htail i j (by omega) a b ha hb

/-! ## Claim C1 -/

/-- C1, counterexample: `add_transaction` performs no amount validation — an
append with amount 0 (or any non-positive amount) does not fail and does not
leave the ledger unchanged; the transaction is appended.  (There is no
`InvalidAmount` error anywhere in `engine.py`.) -/
theorem claim1_counterexample :
    (addTransaction (SimState.init 3) .PURCHASE 0 (mkDate 2025 1 5)
        (mkDate 2025 1 5)).transactions ≠ (SimState.init 3).transactions ∧
    (addTransaction (SimState.init 3) .PURCHASE (-5) (mkDate 2025 1 5)
        (mkDate 2025 1 5)).transactions.length = 1 := by
  constructor
  · decide
  · decide

/-- C1 (amended): the ledger append operation `KeepCardSimulator.add_transaction`
performs no validation of the amount: for every transaction kind, effective
date, creation date and every amount — positive, zero or negative — the call
succeeds and appends exactly one transaction to the ledger. -/
theorem claim1_no_amount_validation (st : SimState) (kind : TxKind) (amount : ℚ)
    (eff created : ℕ) :
    (addTransaction st kind amount eff created).transactions.length =
      st.transactions.length + 1 := by
  show (recalcBalance (sortTxns (st.transactions ++ [_]))).length = _
  unfold recalcBalance
  rw [recalcBalanceAux_length, sortTxns_length]
  simp

/-! ## Claim C10 -/

/-- C10: after every ledger append the transactions are sorted by
`(effective_date, kind)` with the categorical kind order EXTENSION (0) <
PAYMENT (1) < PURCHASE (2); REFUND is outside the categorical key, compares
as missing and sorts last (rank 3).  In particular any two rows sharing an
effective date appear in non-decreasing kind rank, so a REFUND row on a date
follows all EXTENSION/PAYMENT/PURCHASE rows of that date. -/
theorem claim10_same_date_order (st : SimState) (kind : TxKind) (amount : ℚ)
    (eff created : ℕ) :
    (∀ i j, i < j → ∀ a b,
      (addTransaction st kind amount eff created).transactions.get? i = some a →
      (addTransaction st kind amount eff created).transactions.get? j = some b →
      a.effectiveDate = b.effectiveDate → kindRank a.kind ≤ kindRank b.kind) ∧
    kindRank .EXTENSION = 0 ∧ kindRank .PAYMENT = 1 ∧ kindRank .PURCHASE = 2 ∧
    kindRank .REFUND = 3 := by
  refine ⟨?_, rfl, rfl, rfl, rfl⟩
  intro i j hij a b ha hb hdate
  have hpw : (addTransaction st kind amount eff created).transactions.Pairwise txOrdered := by
    show (recalcBalance (sortTxns _)).Pairwise txOrdered
    exact recalcBalance_pairwise (sortTxns_pairwise _)
  have hR : txOrdered a b := pairwise_get?_rel hpw i j hij a b ha hb
  unfold txOrdered keyLe txKey at hR
  simp only at hR
  omega

/-! ## Claim C4 -/

theorem sum_map_const_range (m : ℕ) (c : ℚ) :
    ((List.range m).map fun _ => c).sum = (m : ℚ) * c := by
  induction m with
  | zero => simp
  | succ m ih =>
    rw [List.range_succ, List.map_append, List.sum_append, ih]
    push_cast
    simp
    ring

theorem sum_range_map_lastSplit (n : ℕ) (hn : 1 ≤ n) (c r : ℚ) :
    ((List.range n).map fun k => if k + 1 = n then r else c).sum
      = c * ((n - 1 : ℕ) : ℚ) + r := by
  obtain ⟨m, rfl⟩ : ∃ m, n = m + 1 := ⟨n - 1, by omega⟩
  rw [List.range_succ, List.map_append, List.sum_append]
  have hcongr : (List.range m).map (fun k => if k + 1 = m + 1 then r else c)
      = (List.range m).map fun _ => c := by
    apply List.map_congr_left
    intro a ha
    have : a < m := List.mem_range.mp ha
    rw [if_neg (by omega)]
  rw [hcongr, sum_map_const_range]
  simp [Nat.add_sub_cancel, mul_comm]

/-- C4: for every extension created with a positive amount, a term of 1-12
months and an APR, the scheduled principal amounts sum exactly to the
original amount and the scheduled interest amounts sum exactly to
`total_interest = amount * (apr/100) * (term/12)`; every non-final
installment is the evenly divided share rounded to cents, and the final
installment absorbs the rounding remainder. -/
theorem claim4_schedule_sums (extensionId : String) (amount : ℚ) (startDate : ℕ)
    (term : ℕ) (apr : ℚ) (h0 : 0 < amount) (h1 : 1 ≤ term) (h2 : term ≤ 12) :
    ((createExtension extensionId amount startDate term apr).paymentSchedule.map
        fun i => i.principalAmount).sum = amount ∧
    ((createExtension extensionId amount startDate term apr).paymentSchedule.map
        fun i => i.interestAmount).sum = amount * (apr / 100) * ((term : ℚ) / 12) ∧
    (createExtension extensionId amount startDate term apr).totalInterest
      = amount * (apr / 100) * ((term : ℚ) / 12) ∧
    (∀ inst ∈ (createExtension extensionId amount startDate term apr).paymentSchedule,
      inst.paymentNumber ≠ term →
        inst.principalAmount = quantize2 (amount / (term : ℚ)) ∧
        inst.interestAmount
          = quantize2 (amount * (apr / 100) * ((term : ℚ) / 12) / (term : ℚ))) ∧
    (∀ inst ∈ (createExtension extensionId amount startDate term apr).paymentSchedule,
      inst.paymentNumber = term →
        inst.principalAmount
          = amount - quantize2 (amount / (term : ℚ)) * ((term - 1 : ℕ) : ℚ) ∧
        inst.interestAmount
          = amount * (apr / 100) * ((term : ℚ) / 12)
            - quantize2 (amount * (apr / 100) * ((term : ℚ) / 12) / (term : ℚ))
              * ((term - 1 : ℕ) : ℚ)) := by
  have hterm : min (max 1 term) 12 = term := by omega
  unfold createExtension
  rw [hterm]
  simp only [List.map_map, Function.comp_def]
  have hprin : ∀ mp mi pr ir k,
      (scheduleRow startDate term mp mi pr ir (k + 1)).principalAmount
        = if k + 1 = term then pr else mp := by
    intro mp mi pr ir k; rfl
  have hint : ∀ mp mi pr ir k,
      (scheduleRow startDate term mp mi pr ir (k + 1)).interestAmount
        = if k + 1 = term then ir else mi := by
    intro mp mi pr ir k; rfl
  have hnum : ∀ mp mi pr ir k,
      (scheduleRow startDate term mp mi pr ir (k + 1)).paymentNumber = k + 1 := by
    intro mp mi pr ir k; rfl
  refine ⟨?_, ?_, ?_, ?_, ?_⟩
  · rw [List.map_congr_left fun a _ => hprin _ _ _ _ a,
      sum_range_map_lastSplit term h1]
    ring
  · rw [List.map_congr_left fun a _ => hint _ _ _ _ a,
      sum_range_map_lastSplit term h1]
    ring
  · trivial
  · intro inst hmem hne
    rcases List.mem_map.mp hmem with ⟨k, _, hk⟩
    have hkt : k + 1 ≠ term := by
      intro he
      exact hne (by rw [← hk, hnum, he])
    rw [← hk]
    constructor
    · rw [hprin, if_neg hkt]
    · rw [hint, if_neg hkt]
  · intro inst hmem heq
    rcases List.mem_map.mp hmem with ⟨k, _, hk⟩
    have hkt : k + 1 = term := by rw [← hk, hnum] at heq; exact heq
    rw [← hk]
    constructor
    · rw [hprin, if_pos hkt]
    · rw [hint, if_pos hkt]

/-- C4, witness at amount 1000.00, 3 months, 36% APR (the repo's own test
extension): the hypotheses hold and the schedule reconciles. -/
theorem claim4_witness :
    (0 : ℚ) < 1000 ∧ 1 ≤ 3 ∧ 3 ≤ 12 ∧
    ((createExtension "W" 1000 (mkDate 2025 1 15) 3 36).paymentSchedule.map
        fun i => i.principalAmount).sum = 1000 := by
  refine ⟨by norm_num, by norm_num, by norm_num, ?_⟩
  exact (claim4_schedule_sums "W" 1000 (mkDate 2025 1 15) 3 36 (by norm_num)
    (by norm_num) (by norm_num)).1

/-! ## Claim C6 (spec-modelled statement-cycle generator) -/

inductive CycleError where
  | invalidCycleAnchor
deriving DecidableEq, Repr

/-- Modelled from the spec: the cycle list of `Cycles.generate` /
`Statement.get_statement_cycles` (the class `Statement` is referenced by the
repository's tests but its code is not under `src/`): each cycle runs from
`start` to `start + 1 month − 1 day`, is due `grace_period` business days
after its end, and the next cycle starts the day after the end. -/
def cyclesFrom (gracePeriodDays : ℕ) : ℕ → ℕ → List (ℕ × ℕ × ℕ)
  | _, 0 => []
  | start, count + 1 =>
    let endD := addMonths start 1 - 1
    (start, endD, addBusinessDays endD gracePeriodDays) ::
      cyclesFrom gracePeriodDays (endD + 1) count

/-- Modelled from the spec: `Cycles.generate(start_date, grace_period_days,
count)` (`Statement.get_statement_cycles` in the tests — code not under
`src/`), which fails with `InvalidCycleAnchor` when the start date's
day-of-month lies in {1, 28, 29, 30, 31} and otherwise returns the cycle
triples. -/
def getStatementCycles (startDate gracePeriodDays count : ℕ) :
    Except CycleError (List (ℕ × ℕ × ℕ)) :=
  if (civilFromDays startDate).day ∈ [1, 28, 29, 30, 31] then
    .error .invalidCycleAnchor
  else
    .ok (cyclesFrom gracePeriodDays startDate count)

/-- C6: statement-cycle generation fails with `InvalidCycleAnchor` exactly
when the start date's day-of-month is in {1, 28, 29, 30, 31}; in particular
`Cycles.generate(2025-01-01, 21, 1)` fails with `InvalidCycleAnchor`. -/
theorem claim6_invalid_cycle_anchor :
    (∀ startDate gracePeriodDays count,
      ((civilFromDays startDate).day ∈ [1, 28, 29, 30, 31] ↔
        getStatementCycles startDate gracePeriodDays count
          = .error .invalidCycleAnchor)) ∧
    getStatementCycles (mkDate 2025 1 1) 21 1 = .error .invalidCycleAnchor := by
  constructor
  · intro startDate gracePeriodDays count
    constructor
    · intro h
      unfold getStatementCycles
      rw [if_pos h]
    · intro h
      unfold getStatementCycles at h
      by_cases hd : (civilFromDays startDate).day ∈ [1, 28, 29, 30, 31]
      · exact hd
      · rw [if_neg hd] at h
        exact absurd h (by simp)
  · unfold getStatementCycles
    rw [if_pos (by decide)]

/-- C6, witness: the day-of-month test applied at the concrete example date. -/
theorem claim6_witness :
    (civilFromDays (mkDate 2025 1 1)).day ∈ [1, 28, 29, 30, 31] ∧
    getStatementCycles (mkDate 2025 1 1) 21 365 = .error .invalidCycleAnchor :=
  ⟨by decide, (claim6_invalid_cycle_anchor.1 (mkDate 2025 1 1) 21 365).mp (by decide)⟩

/-! ## Claim C5 -/

theorem genLoop_due (txs : List Txn) (cs maxD : ℕ) :
    ∀ fuel cur prev, ∀ s ∈ (genLoop txs cs maxD fuel cur prev).1,
      s.dueDate = getNextBusinessDay s.endDate := by
  intro fuel
  induction fuel with
  | zero => intro cur prev s hs; simp [genLoop] at hs
  | succ fuel ih =>
    intro cur prev s hs
    simp only [genLoop] at hs
    by_cases hc : cur ≤ maxD
    · rw [if_pos hc] at hs
      rcases List.mem_cons.mp hs with hs | hs
      · rw [hs]
      · exact ih _ _ s hs
    · rw [if_neg hc] at hs
      simp at hs

theorem mem_appendOpenStmt {cs ns : ℕ} {closed : List Stmt} {s : Stmt}
    (h : s ∈ appendOpenStmt cs ns closed) :
    s ∈ closed ∨ ∃ v, s = openStmt cs ns v := by
  unfold appendOpenStmt at h
  cases hlast : closed.getLast? with
  | none => rw [hlast] at h; exact Or.inl h
  | some last =>
    rw [hlast] at h
    rcases List.mem_append.mp h with h | h
    · exact Or.inl h
    · exact Or.inr ⟨_, List.mem_singleton.mp h⟩

theorem mem_updateBalanceDueFrom :
    ∀ (j : ℕ) (l : List Stmt) (s2 : Stmt), s2 ∈ updateBalanceDueFrom j l →
      ∃ s ∈ l, s2.dueDate = s.dueDate ∧ s2.endDate = s.endDate := by
  intro j l
  induction l generalizing j with
  | nil => intro s2 h; simp [updateBalanceDueFrom] at h
  | cons h0 rest ih =>
    intro s2 h
    simp only [updateBalanceDueFrom] at h
    rcases List.mem_cons.mp h with h | h
    · refine ⟨h0, by simp, ?_⟩
      by_cases hj : j = 0
      · rw [if_pos hj] at h; rw [h]; exact ⟨rfl, rfl⟩
      · rw [if_neg hj] at h; rw [h]; exact ⟨rfl, rfl⟩
    · rcases ih (j + 1) s2 h with ⟨s, hs, he⟩
      exact ⟨s, by simp [hs], he⟩

/-- C5: every generated statement cycle's due date is its end date stepped
forward by the grace period's number of business days — in the simulator the
grace period is one business day (`get_next_business_day`), and that step is
exactly `add_business_days(end, 1)` over the weekday/holiday calendar: the
due date is the first business day strictly after the end date. -/
theorem claim5_due_dates (txs : List Txn) (cycleStart : ℕ) :
    ∀ stmt ∈ generateStatements txs cycleStart,
      stmt.dueDate = addBusinessDays stmt.endDate 1 ∧
      isBusinessDay stmt.dueDate ∧ stmt.endDate < stmt.dueDate ∧
      ∀ x, stmt.endDate < x → x < stmt.dueDate → ¬ isBusinessDay x := by
  intro stmt hmem
  have hdue : stmt.dueDate = getNextBusinessDay stmt.endDate := by
    cases txs with
    | nil => simp [generateStatements] at hmem
    | cons t0 ts =>
      simp only [generateStatements] at hmem
      rcases mem_updateBalanceDueFrom 0 _ stmt hmem with ⟨s, hs, hd, he⟩
      rcases mem_appendOpenStmt hs with hs2 | ⟨v, rfl⟩
      · rw [hd, he]
        exact genLoop_due _ _ _ _ _ _ s hs2
      · rw [hd, he]
        rfl
  have hspec := getNextBusinessDay_spec stmt.endDate
  refine ⟨by rw [hdue, addBusinessDays_one], ?_, ?_, ?_⟩
  · rw [hdue]; exact hspec.2.2.1
  · rw [hdue]; exact hspec.1
  · intro x h1 h2
    rw [hdue] at h2
    exact hspec.2.2.2 x h1 h2

set_option maxRecDepth 4000 in
/-- C5, witness: the first statement generated for a single January purchase
with cycle anchor 3 (its end 2025-01-02 is followed by business day
2025-01-03). -/
theorem claim5_witness :
    (Stmt.mk (mkDate 2024 12 3) (mkDate 2025 1 2) (mkDate 2025 1 3) 0 (some 0)
        (some 0) (some 0) (some 0) (some 0) 0) ∈
      generateStatements
        [Txn.mk .PURCHASE .DEBIT 100 (mkDate 2025 1 5) (mkDate 2025 1 5) 100] 3 ∧
    (Stmt.mk (mkDate 2024 12 3) (mkDate 2025 1 2) (mkDate 2025 1 3) 0 (some 0)
        (some 0) (some 0) (some 0) (some 0) 0).dueDate =
      addBusinessDays (mkDate 2025 1 2) 1 :=
  ⟨by decide,
   (claim5_due_dates
      [Txn.mk .PURCHASE .DEBIT 100 (mkDate 2025 1 5) (mkDate 2025 1 5) 100] 3 _
      (by decide)).1⟩

/-! ## Claim C8 -/

/-- The claim's own description of `balance_due_as_of`: the anchor statement
is *the latest statement whose start_date ≤ date* — selected by maximal
start date (ties resolved to the later row) rather than by position. -/
def latestStmtOn (stmts : List Stmt) (date : ℕ) : Option Stmt :=
  (stmts.filter fun s => decide (s.startDate ≤ date)).foldl
    (fun acc s =>
      match acc with
      | none => some s
      | some a => if a.startDate ≤ s.startDate then some s else some a)
    none

/-- The claim's description of `balance_due_as_of(date)`: take the balance
due of the latest statement whose start is on or before `date` and apply the
PAYMENT/EXTENSION transactions effective in `[that start, date]` in order;
0 when no such statement exists. -/
def specBalanceDueAsOf (st : SimState) (date : ℕ) : ℚ :=
  match latestStmtOn st.statements date with
  | none => 0
  | some cur => balanceDueFold st.transactions cur.startDate date cur.balanceDue

theorem getLast?_cons_eq_getLastD {α : Type} (a : α) (l : List α) :
    (a :: l).getLast? = some (l.getLastD a) := by
  induction l generalizing a with
  | nil => rfl
  | cons g grest ih =>
    rw [List.getLast?_cons_cons, List.getLastD_cons]
    exact ih g

theorem foldlLatest_sorted :
    ∀ (l : List Stmt) (a : Stmt),
      l.Pairwise (fun x y => x.startDate ≤ y.startDate) →
      (∀ s ∈ l, a.startDate ≤ s.startDate) →
      l.foldl
        (fun acc s =>
          match acc with
          | none => some s
          | some a => if a.startDate ≤ s.startDate then some s else some a)
        (some a) = some (l.getLastD a) := by
  intro l
  induction l with
  | nil => intro a _ _; rfl
  | cons s rest ih =>
    intro a hpw hle
    rcases List.pairwise_cons.mp hpw with ⟨hhead, htail⟩
    have hstep : a.startDate ≤ s.startDate := hle s (by simp)
    simp only [List.foldl_cons, if_pos hstep, List.getLastD_cons]
    exact ih s htail hhead

/-- C8: `calculate_period_balance_due(date)` equals the claim's description —
the balance_due of the latest statement whose start_date ≤ date, updated by
the PAYMENT/EXTENSION transactions effective in [that start, date] (credits
floor at 0, debits would increase) — whenever the statement list is in
ascending start-date order (as generated); and it returns 0 when no
statement starts on or before `date`. -/
theorem claim8_balance_due_as_of (st : SimState) (date : ℕ)
    (hsorted : st.statements.Pairwise fun a b => a.startDate ≤ b.startDate) :
    calculatePeriodBalanceDue st date = specBalanceDueAsOf st date ∧
    ((∀ s ∈ st.statements, date < s.startDate) →
      calculatePeriodBalanceDue st date = 0) := by
  have hfsorted : (st.statements.filter fun s => decide (s.startDate ≤ date)).Pairwise
      (fun a b => a.startDate ≤ b.startDate) := hsorted.filter _
  constructor
  · unfold calculatePeriodBalanceDue specBalanceDueAsOf latestStmtOn
    cases hf : st.statements.filter fun s => decide (s.startDate ≤ date) with
    | nil => rfl
    | cons f0 frest =>
      rw [hf] at hfsorted
      rcases List.pairwise_cons.mp hfsorted with ⟨hhead, htail⟩
      simp only [List.foldl_cons]
      rw [foldlLatest_sorted frest f0 htail hhead]
      rw [getLast?_cons_eq_getLastD f0 frest]
  · intro hnone
    have hf : (st.statements.filter fun s => decide (s.startDate ≤ date)) = [] := by
      rw [List.filter_eq_nil_iff]
      intro s hs
      simp only [decide_eq_true_eq]
      have := hnone s hs
      omega
    unfold calculatePeriodBalanceDue
    rw [hf]
    rfl

/-- C8, witness: a two-statement ledger state (one closed January cycle, one
open February cycle with balance due 500) and a 200 payment on Feb 10,
queried on Mar 1. -/
theorem claim8_witness :
    (SimState.mk
        [Txn.mk .PAYMENT .CREDIT 200 (mkDate 2025 2 10) (mkDate 2025 2 10) (-200)]
        [Stmt.mk (mkDate 2025 1 3) (mkDate 2025 2 2) (mkDate 2025 2 3) 0 (some 500)
          (some 500) (some 0) (some 0) (some 0) 0,
         Stmt.mk (mkDate 2025 2 3) (mkDate 2025 3 2) (mkDate 2025 3 3) 500 none
          none none none none 500] 3).statements.Pairwise
      (fun a b => a.startDate ≤ b.startDate) ∧
    calculatePeriodBalanceDue
      (SimState.mk
        [Txn.mk .PAYMENT .CREDIT 200 (mkDate 2025 2 10) (mkDate 2025 2 10) (-200)]
        [Stmt.mk (mkDate 2025 1 3) (mkDate 2025 2 2) (mkDate 2025 2 3) 0 (some 500)
          (some 500) (some 0) (some 0) (some 0) 0,
         Stmt.mk (mkDate 2025 2 3) (mkDate 2025 3 2) (mkDate 2025 3 3) 500 none
          none none none none 500] 3) (mkDate 2025 3 1) =
      specBalanceDueAsOf
        (SimState.mk
          [Txn.mk .PAYMENT .CREDIT 200 (mkDate 2025 2 10) (mkDate 2025 2 10) (-200)]
          [Stmt.mk (mkDate 2025 1 3) (mkDate 2025 2 2) (mkDate 2025 2 3) 0 (some 500)
            (some 500) (some 0) (some 0) (some 0) 0,
           Stmt.mk (mkDate 2025 2 3) (mkDate 2025 3 2) (mkDate 2025 3 3) 500 none
            none none none none 500] 3) (mkDate 2025 3 1) :=
  ⟨by decide,
   (claim8_balance_due_as_of
      (SimState.mk
        [Txn.mk .PAYMENT .CREDIT 200 (mkDate 2025 2 10) (mkDate 2025 2 10) (-200)]
        [Stmt.mk (mkDate 2025 1 3) (mkDate 2025 2 2) (mkDate 2025 2 3) 0 (some 500)
          (some 500) (some 0) (some 0) (some 0) 0,
         Stmt.mk (mkDate 2025 2 3) (mkDate 2025 3 2) (mkDate 2025 3 3) 500 none
          none none none none 500] 3) (mkDate 2025 3 1) (by decide)).1⟩

/-! ## Claim C2 -/

/-- The claim's notion of the phase-2 target: the earliest *unpaid*
installment whose payment_date is on or after the payment date (first
position wins ties).  Compare with `getNextInstallment`, which does not
filter out paid rows. -/
def earliestUnpaidGEFrom (payDate : ℕ) : ℕ → List Installment → Option (ℕ × Installment)
  | _, [] => none
  | i, inst :: rest =>
    let r := earliestUnpaidGEFrom payDate (i + 1) rest
    if payDate ≤ inst.paymentDate ∧ inst.paid = false then
      match r with
      | none => some (i, inst)
      | some (j, instj) =>
        if instj.paymentDate < inst.paymentDate then some (j, instj) else some (i, inst)
    else r

def earliestUnpaidGE (payDate : ℕ) (sched : List Installment) :
    Option (ℕ × Installment) :=
  earliestUnpaidGEFrom payDate 0 sched

/-- Claim C2 as stated: whenever funds remain after the past-due phase and an
unpaid installment dated on/after the payment date exists, the current/next
phase applies the funds (principal first) to the earliest such *unpaid*
installment — its remaining principal drops by `min(funds, remaining)`. -/
def claim2Asserted : Prop :=
  ∀ (payDate : ℕ) (sched : List Installment) (funds tp ti : ℚ)
    (i : ℕ) (inst : Installment),
    0 < funds →
    earliestUnpaidGE payDate sched = some (i, inst) →
    ((payCurrentNext payDate sched funds tp ti).1.get? i).map
        (fun x => x.remainingPrincipal) =
      some (quantize2 (inst.remainingPrincipal - min funds inst.remainingPrincipal))

/-- C2, counterexample: after paying off the first installment of a 2-month
1000.00 extension early (530.00 on 2025-02-01), the schedule is
[paid Feb 15 row, unpaid Mar 15 row (500 principal, 30 interest)].  On
2025-02-01 with 100.00 of funds, the claim says the unpaid Mar 15 row's
principal drops to 400.00; in the code `get_next_installment` returns the
*paid* Feb 15 row, the guard fails, and the phase applies nothing. -/
theorem claim2_counterexample : ¬ claim2Asserted := by
  intro h
  have hc := h (mkDate 2025 2 1)
    ((makePayment (createExtension "T" 1000 (mkDate 2025 1 15) 2 36) 530
        (mkDate 2025 2 1)).1.paymentSchedule)
    100 0 0 1 (Installment.mk 2 (mkDate 2025 3 15) 530 500 30 500 30 530 false)
    (by norm_num) (by decide)
  exact absurd hc (by decide)

theorem getNextInstallmentFrom_none_spec (payDate : ℕ) :
    ∀ (sched : List Installment) (base : ℕ),
      getNextInstallmentFrom payDate base sched = none →
      ∀ instk ∈ sched, instk.paymentDate < payDate := by
  intro sched
  induction sched with
  | nil => intro base _ instk hk; simp at hk
  | cons h0 rest ih =>
    intro base hnone instk hk
    simp only [getNextInstallmentFrom] at hnone
    by_cases hd : payDate ≤ h0.paymentDate
    · rw [if_pos hd] at hnone
      cases hr : getNextInstallmentFrom payDate (base + 1) rest with
      | none => rw [hr] at hnone; simp at hnone
      | some v => rw [hr] at hnone; rcases v with ⟨j, instj⟩
                  by_cases hj : instj.paymentDate < h0.paymentDate <;>
                    simp [hj] at hnone
    · rw [if_neg hd] at hnone
      rcases List.mem_cons.mp hk with hk | hk
      · rw [hk]; omega
      · exact ih (base + 1) hnone instk hk

theorem getNextInstallmentFrom_some_spec (payDate : ℕ) :
    ∀ (sched : List Installment) (base i : ℕ) (inst : Installment),
      getNextInstallmentFrom payDate base sched = some (i, inst) →
      inst ∈ sched ∧ payDate ≤ inst.paymentDate ∧
      ∀ instk ∈ sched, payDate ≤ instk.paymentDate →
        inst.paymentDate ≤ instk.paymentDate := by
  intro sched
  induction sched with
  | nil => intro base i inst h; simp [getNextInstallmentFrom] at h
  | cons h0 rest ih =>
    intro base i inst h
    simp only [getNextInstallmentFrom] at h
    by_cases hd : payDate ≤ h0.paymentDate
    · rw [if_pos hd] at h
      cases hr : getNextInstallmentFrom payDate (base + 1) rest with
      | none =>
        rw [hr] at h
        dsimp only at h
        injection h with h2
        injection h2 with h3 h4
        subst h4
        refine ⟨by simp, hd, ?_⟩
        intro instk hk hdk
        rcases List.mem_cons.mp hk with hk | hk
        · rw [hk]
        · have := getNextInstallmentFrom_none_spec payDate rest (base + 1) hr instk hk
          omega
      | some v =>
        rcases v with ⟨j, instj⟩
        rw [hr] at h
        dsimp only at h
        rcases ih (base + 1) j instj hr with ⟨hmem, hdj, hminj⟩
        by_cases hj : instj.paymentDate < h0.paymentDate
        · rw [if_pos hj] at h
          injection h with h2
          injection h2 with h3 h4
          subst h4
          refine ⟨by simp [hmem], hdj, ?_⟩
          intro instk hk hdk
          rcases List.mem_cons.mp hk with hk | hk
          · rw [hk]; omega
          · exact hminj instk hk hdk
        · rw [if_neg hj] at h
          injection h with h2
          injection h2 with h3 h4
          subst h4
          refine ⟨by simp, hd, ?_⟩
          intro instk hk hdk
          rcases List.mem_cons.mp hk with hk | hk
          · rw [hk]
          · have := hminj instk hk hdk
            omega
    · rw [if_neg hd] at h
      rcases ih (base + 1) i inst h with ⟨hmem, hdi, hmini⟩
      refine ⟨by simp [hmem], hdi, ?_⟩
      intro instk hk hdk
      rcases List.mem_cons.mp hk with hk | hk
      · rw [hk] at hdk; omega
      · exact hmini instk hk hdk

/-- C2 (amended): the current/next phase targets the earliest installment
dated on/after the payment date *without filtering out paid rows*
(`get_next_installment`).  Only when that row is unpaid (and funds remain)
does the phase apply the funds to it, principal first then interest; when
that row is already paid the phase applies nothing — even if a later unpaid
installment dated on/after the payment date exists. -/
theorem claim2_phase_behavior (payDate : ℕ) (sched : List Installment)
    (funds tp ti : ℚ) (i : ℕ) (inst : Installment)
    (h : getNextInstallment payDate sched = some (i, inst)) :
    (inst ∈ sched ∧ payDate ≤ inst.paymentDate ∧
      ∀ instk ∈ sched, payDate ≤ instk.paymentDate →
        inst.paymentDate ≤ instk.paymentDate) ∧
    (inst.paid = true →
      payCurrentNext payDate sched funds tp ti = (sched, funds, tp, ti)) ∧
    (inst.paid = false → 0 < funds →
      payCurrentNext payDate sched funds tp ti =
        (sched.set i (payInstallment inst funds).1,
         (payInstallment inst funds).2.1,
         tp + (payInstallment inst funds).2.2.1,
         ti + (payInstallment inst funds).2.2.2)) := by
  refine ⟨getNextInstallmentFrom_some_spec payDate sched 0 i inst h, ?_, ?_⟩
  · intro hpaid
    unfold payCurrentNext
    rw [h]
    dsimp only
    rw [if_neg (by simp [hpaid])]
  · intro hunpaid hfunds
    unfold payCurrentNext
    rw [h]
    dsimp only
    rw [if_pos ⟨hunpaid, hfunds⟩]

/-- C2, witness for the amended theorem: on the post-early-payment schedule,
`get_next_installment` picks the paid Feb 15 row and the phase leaves the
state unchanged. -/
theorem claim2_witness :
    getNextInstallment (mkDate 2025 2 1)
        ((makePayment (createExtension "T" 1000 (mkDate 2025 1 15) 2 36) 530
            (mkDate 2025 2 1)).1.paymentSchedule) =
      some (0, Installment.mk 1 (mkDate 2025 2 15) 530 500 30 0 0 0 true) ∧
    payCurrentNext (mkDate 2025 2 1)
        ((makePayment (createExtension "T" 1000 (mkDate 2025 1 15) 2 36) 530
            (mkDate 2025 2 1)).1.paymentSchedule) 100 0 0 =
      (((makePayment (createExtension "T" 1000 (mkDate 2025 1 15) 2 36) 530
            (mkDate 2025 2 1)).1.paymentSchedule), 100, 0, 0) :=
  ⟨by decide,
   (claim2_phase_behavior (mkDate 2025 2 1)
      ((makePayment (createExtension "T" 1000 (mkDate 2025 1 15) 2 36) 530
          (mkDate 2025 2 1)).1.paymentSchedule) 100 0 0 0
      (Installment.mk 1 (mkDate 2025 2 15) 530 500 30 0 0 0 true)
      (by decide)).2.1 rfl⟩

/-! ## Claim C3 -/

/-- Nonnegativity of an installment's remaining fields. -/
def InstNonneg (inst : Installment) : Prop :=
  0 ≤ inst.remainingPrincipal ∧ 0 ≤ inst.remainingInterest ∧ 0 ≤ inst.remainingAmount

instance (inst : Installment) : Decidable (InstNonneg inst) := by
  unfold InstNonneg; infer_instance

theorem roundHalfEven_nonneg {x : ℚ} (h : 0 ≤ x) : 0 ≤ roundHalfEven x := by
  have hf : 0 ≤ ⌊x⌋ := Int.floor_nonneg.mpr h
  simp only [roundHalfEven]
  split_ifs <;> omega

theorem quantize2_nonneg {x : ℚ} (h : 0 ≤ x) : 0 ≤ quantize2 x := by
  unfold quantize2
  have h2 : 0 ≤ roundHalfEven (100 * x) := roundHalfEven_nonneg (by positivity)
  have h3 : (0 : ℚ) ≤ (roundHalfEven (100 * x) : ℚ) := by exact_mod_cast h2
  positivity

theorem payInstallment_nonneg {inst : Installment} (funds : ℚ)
    (h : InstNonneg inst) : InstNonneg (payInstallment inst funds).1 := by
  rcases h with ⟨hp, hi, _⟩
  unfold payInstallment
  dsimp only
  by_cases h2 : 0 < funds - min funds inst.remainingPrincipal
  · rw [if_pos h2]
    refine ⟨?_, ?_, ?_⟩
    · exact quantize2_nonneg (by simp [sub_nonneg])
    · exact quantize2_nonneg (by simp [sub_nonneg])
    · refine quantize2_nonneg (add_nonneg ?_ ?_)
      · exact quantize2_nonneg (by simp [sub_nonneg])
      · exact quantize2_nonneg (by simp [sub_nonneg])
  · rw [if_neg h2]
    refine ⟨?_, hi, ?_⟩
    · exact quantize2_nonneg (by simp [sub_nonneg])
    · refine quantize2_nonneg (add_nonneg hi ?_)
      · exact quantize2_nonneg (by simp [sub_nonneg])

theorem payPastDue_nonneg (payDate : ℕ) :
    ∀ (sched : List Installment) (funds tp ti : ℚ),
      (∀ inst ∈ sched, InstNonneg inst) →
      ∀ inst ∈ (payPastDue payDate sched funds tp ti).1, InstNonneg inst := by
  intro sched
  induction sched with
  | nil => intro funds tp ti _ inst h; simp [payPastDue] at h
  | cons h0 rest ih =>
    intro funds tp ti hall inst hmem
    have hh0 : InstNonneg h0 := hall h0 (by simp)
    have hrest : ∀ i ∈ rest, InstNonneg i := fun i hi => hall i (by simp [hi])
    simp only [payPastDue] at hmem
    by_cases hc : h0.paymentDate < payDate ∧ h0.paid = false
    · rw [if_pos hc] at hmem
      by_cases hf : (payInstallment h0 funds).2.1 ≤ 0
      · rw [if_pos hf] at hmem
        rcases List.mem_cons.mp hmem with hmem | hmem
        · exact hmem ▸ payInstallment_nonneg funds hh0
        · exact hrest inst hmem
      · rw [if_neg hf] at hmem
        rcases List.mem_cons.mp hmem with hmem | hmem
        · exact hmem ▸ payInstallment_nonneg funds hh0
        · exact ih _ _ _ hrest inst hmem
    · rw [if_neg hc] at hmem
      rcases List.mem_cons.mp hmem with hmem | hmem
      · exact hmem ▸ hh0
      · exact ih _ _ _ hrest inst hmem

theorem payCurrentNext_nonneg (payDate : ℕ) (sched : List Installment)
    (funds tp ti : ℚ) (hall : ∀ inst ∈ sched, InstNonneg inst) :
    ∀ inst ∈ (payCurrentNext payDate sched funds tp ti).1, InstNonneg inst := by
  intro inst hmem
  unfold payCurrentNext at hmem
  cases hg : getNextInstallment payDate sched with
  | none => rw [hg] at hmem; exact hall inst hmem
  | some v =>
    rcases v with ⟨idx, instx⟩
    rw [hg] at hmem
    dsimp only at hmem
    by_cases hc : instx.paid = false ∧ 0 < funds
    · rw [if_pos hc] at hmem
      rcases List.mem_or_eq_of_mem_set hmem with hmem | hmem
      · exact hall inst hmem
      · have hx : instx ∈ sched :=
          (getNextInstallmentFrom_some_spec payDate sched 0 idx instx hg).1
        exact hmem ▸ payInstallment_nonneg funds (hall instx hx)
    · rw [if_neg hc] at hmem
      exact hall inst hmem

theorem applyFuture_nonneg (payDate : ℕ) (perP perI : ℚ) :
    ∀ (sched : List Installment) (tp ti : ℚ),
      (∀ inst ∈ sched, InstNonneg inst) →
      ∀ inst ∈ (applyFuture payDate perP perI sched tp ti).1, InstNonneg inst := by
  intro sched
  induction sched with
  | nil => intro tp ti _ inst h; simp [applyFuture] at h
  | cons h0 rest ih =>
    intro tp ti hall inst hmem
    have hh0 : InstNonneg h0 := hall h0 (by simp)
    have hrest : ∀ i ∈ rest, InstNonneg i := fun i hi => hall i (by simp [hi])
    simp only [applyFuture] at hmem
    by_cases hc : payDate < h0.paymentDate ∧ h0.paid = false
    · rw [if_pos hc] at hmem
      rcases List.mem_cons.mp hmem with hmem | hmem
      · rcases hh0 with ⟨hp, hi, _⟩
        rw [hmem]
        refine ⟨?_, ?_, ?_⟩
        · exact quantize2_nonneg (by simp [sub_nonneg])
        · exact quantize2_nonneg (by simp [sub_nonneg])
        · refine quantize2_nonneg (add_nonneg ?_ ?_)
          · exact quantize2_nonneg (by simp [sub_nonneg])
          · exact quantize2_nonneg (by simp [sub_nonneg])
      · exact ih _ _ hrest inst hmem
    · rw [if_neg hc] at hmem
      rcases List.mem_cons.mp hmem with hmem | hmem
      · exact hmem ▸ hh0
      · exact ih _ _ hrest inst hmem

theorem payFuture_nonneg (payDate : ℕ) (sched : List Installment)
    (funds tp ti : ℚ) (hall : ∀ inst ∈ sched, InstNonneg inst) :
    ∀ inst ∈ (payFuture payDate sched funds tp ti).1, InstNonneg inst := by
  intro inst hmem
  unfold payFuture at hmem
  by_cases hf : 0 < funds
  · rw [if_pos hf] at hmem
    by_cases he : (sched.filter fun inst =>
        decide (payDate < inst.paymentDate ∧ inst.paid = false)).isEmpty
    · rw [if_pos he] at hmem; exact hall inst hmem
    · rw [if_neg he] at hmem
      exact applyFuture_nonneg payDate _ _ sched tp ti hall inst hmem
  · rw [if_neg hf] at hmem
    exact hall inst hmem

theorem makePayment_nonneg (e : ExtensionProduct) (amount : ℚ) (payDate : ℕ)
    (hall : ∀ inst ∈ e.paymentSchedule, InstNonneg inst) :
    ∀ inst ∈ (makePayment e amount payDate).1.paymentSchedule, InstNonneg inst := by
  intro inst hmem
  unfold makePayment at hmem
  dsimp only at hmem
  exact payFuture_nonneg _ _ _ _ _
    (payCurrentNext_nonneg _ _ _ _ _ (payPastDue_nonneg _ _ _ _ _ hall)) inst hmem

theorem makePayment_paymentAmount (e : ExtensionProduct) (amount : ℚ)
    (payDate : ℕ) : (makePayment e amount payDate).2.paymentAmount = amount := rfl

theorem allocWalk_sum (payDate : ℕ) :
    ∀ (cands : List Candidate) (exts : List ExtensionProduct) (funds : ℚ)
      (made : List PaymentRec),
      ((allocWalk payDate cands exts funds made).2.2.map
          fun p => p.paymentAmount).sum +
        (allocWalk payDate cands exts funds made).2.1 =
      (made.map fun p => p.paymentAmount).sum + funds := by
  intro cands
  induction cands with
  | nil => intro exts funds made; rfl
  | cons c rest ih =>
    intro exts funds made
    simp only [allocWalk]
    by_cases hf : funds ≤ 0
    · rw [if_pos hf]
    · rw [if_neg hf]
      cases hx : exts[c.extIdx]? with
      | none => exact ih exts funds made
      | some e =>
        dsimp only
        rw [ih]
        rw [List.map_append, List.sum_append]
        simp [makePayment_paymentAmount]

theorem allocWalk_nonneg (payDate : ℕ) :
    ∀ (cands : List Candidate) (exts : List ExtensionProduct) (funds : ℚ)
      (made : List PaymentRec),
      (∀ e ∈ exts, ∀ inst ∈ e.paymentSchedule, InstNonneg inst) →
      ∀ e ∈ (allocWalk payDate cands exts funds made).1,
        ∀ inst ∈ e.paymentSchedule, InstNonneg inst := by
  intro cands
  induction cands with
  | nil => intro exts funds made hall; exact hall
  | cons c rest ih =>
    intro exts funds made hall
    simp only [allocWalk]
    by_cases hf : funds ≤ 0
    · rw [if_pos hf]; exact hall
    · rw [if_neg hf]
      cases hx : exts[c.extIdx]? with
      | none => exact ih exts funds made hall
      | some e =>
        dsimp only
        refine ih _ _ _ ?_
        intro e2 he2
        rcases List.mem_or_eq_of_mem_set he2 with he2 | he2
        · exact hall e2 he2
        · have he : e ∈ exts := by
            have := List.getElem?_mem hx
            exact this
          exact he2 ▸ makePayment_nonneg e _ _ (hall e he)

/-- C3: for every payment date and non-negative amount, the cross-extension
allocation's per-payment amounts plus the unallocated remainder sum exactly
to the input amount, and (whenever the extensions' installments start with
non-negative remaining fields, as they do for any positive schedule) no
installment of any extension ends with `remaining_amount < 0`. -/
theorem claim3_allocation (exts : List ExtensionProduct) (payDate : ℕ)
    (amount : ℚ) (hamount : 0 ≤ amount)
    (hnn : ∀ e ∈ exts, ∀ inst ∈ e.paymentSchedule, InstNonneg inst) :
    ((makePastDueNextDuePayment exts payDate amount).2.payments.map
        fun p => p.paymentAmount).sum +
      (makePastDueNextDuePayment exts payDate amount).2.remainingAmount = amount ∧
    ∀ e ∈ (makePastDueNextDuePayment exts payDate amount).1,
      ∀ inst ∈ e.paymentSchedule, 0 ≤ inst.remainingAmount := by
  constructor
  · have := allocWalk_sum payDate
      (sortCandByDate (buildCandidatesFrom payDate 0 exts)) exts amount []
    simpa [makePastDueNextDuePayment] using this
  · intro e he inst hinst
    have := allocWalk_nonneg payDate
      (sortCandByDate (buildCandidatesFrom payDate 0 exts)) exts amount [] hnn e he
      inst hinst
    exact this.2.2

/-- C3, witness: a factory holding the repo test's 2-month 1000.00 extension,
paid 1200.00 on 2025-03-15. -/
theorem claim3_witness :
    (0 : ℚ) ≤ 1200 ∧
    (∀ e ∈ [createExtension "TEST001" 1000 (mkDate 2025 1 15) 2 36],
      ∀ inst ∈ e.paymentSchedule, InstNonneg inst) ∧
    ((makePastDueNextDuePayment [createExtension "TEST001" 1000 (mkDate 2025 1 15) 2 36]
        (mkDate 2025 3 15) 1200).2.payments.map fun p => p.paymentAmount).sum +
      (makePastDueNextDuePayment [createExtension "TEST001" 1000 (mkDate 2025 1 15) 2 36]
        (mkDate 2025 3 15) 1200).2.remainingAmount = 1200 :=
  ⟨by norm_num, by decide,
   (claim3_allocation [createExtension "TEST001" 1000 (mkDate 2025 1 15) 2 36]
      (mkDate 2025 3 15) 1200 (by norm_num) (by decide)).1⟩

/-! ## Claim C7 -/

/-- Sum of `remaining_principal + remaining_interest` over unpaid rows. -/
def unpaidPI (sched : List Installment) : ℚ :=
  ((sched.filter fun i => !i.paid).map
    fun i => i.remainingPrincipal + i.remainingInterest).sum

/-- Sum of `remaining_principal` over unpaid rows. -/
def unpaidP (sched : List Installment) : ℚ :=
  ((sched.filter fun i => !i.paid).map fun i => i.remainingPrincipal).sum

/-- C7, counterexample: a reachable 3-month 1000.00 / 36% extension state
(first installment paid early on 2025-02-01; the second's principal paid
exactly while past due on 2025-03-20, leaving 30.00 of interest unpaid).
Its full remaining balance is 393.34, yet paying exactly that amount on
2025-02-10 leaves the extension ACTIVE with current_balance 136.67: the
current/next phase is skipped because the earliest row dated on/after the
payment date is already paid, and the future pro-ration phase caps the
per-installment share below the third installment's remaining principal. -/
theorem claim7_counterexample :
    ((makePayment (makePayment (createExtension "X" 1000 (mkDate 2025 1 15) 3 36)
        (363.33 : ℚ) (mkDate 2025 2 1)).1 (333.33 : ℚ) (mkDate 2025 3 20)).1.status
      = "ACTIVE") ∧
    fullRemainingBalance
      (makePayment (makePayment (createExtension "X" 1000 (mkDate 2025 1 15) 3 36)
        (363.33 : ℚ) (mkDate 2025 2 1)).1 (333.33 : ℚ) (mkDate 2025 3 20)).1
      = (393.34 : ℚ) ∧
    (makePayment
        (makePayment (makePayment (createExtension "X" 1000 (mkDate 2025 1 15) 3 36)
          (363.33 : ℚ) (mkDate 2025 2 1)).1 (333.33 : ℚ) (mkDate 2025 3 20)).1
        (393.34 : ℚ) (mkDate 2025 2 10)).1.status ≠ "PAID" ∧
    (makePayment
        (makePayment (makePayment (createExtension "X" 1000 (mkDate 2025 1 15) 3 36)
          (363.33 : ℚ) (mkDate 2025 2 1)).1 (333.33 : ℚ) (mkDate 2025 3 20)).1
        (393.34 : ℚ) (mkDate 2025 2 10)).1.currentBalance = (136.67 : ℚ) := by
  refine ⟨by decide, by decide, by decide, by decide⟩

theorem quantize2_zero : quantize2 0 = 0 := by decide

theorem unpaidPI_cons (h0 : Installment) (rest : List Installment) :
    unpaidPI (h0 :: rest) =
      (if h0.paid then 0 else h0.remainingPrincipal + h0.remainingInterest) +
        unpaidPI rest := by
  unfold unpaidPI
  cases hp : h0.paid <;> simp [List.filter_cons, hp]

theorem unpaidP_cons (h0 : Installment) (rest : List Installment) :
    unpaidP (h0 :: rest) =
      (if h0.paid then 0 else h0.remainingPrincipal) + unpaidP rest := by
  unfold unpaidP
  cases hp : h0.paid <;> simp [List.filter_cons, hp]

theorem unpaidPI_nonneg (sched : List Installment)
    (h : ∀ inst ∈ sched, inst.paid = false →
      0 ≤ inst.remainingPrincipal + inst.remainingInterest) :
    0 ≤ unpaidPI sched := by
  induction sched with
  | nil => simp [unpaidPI]
  | cons h0 rest ih =>
    rw [unpaidPI_cons]
    have hrest := ih fun i hi hp => h i (by simp [hi]) hp
    cases hp : h0.paid with
    | true => simpa using hrest
    | false =>
      rw [if_neg (by simp)]
      have := h h0 (by simp) hp
      linarith

/-- Paying exactly `remaining_principal + remaining_interest + S` into one
unpaid row with non-negative remainders clears the row, pays exactly its
principal and interest, and leaves exactly `S` of funds. -/
theorem payInstallment_exact (inst : Installment) (S : ℚ)
    (hrp : 0 ≤ inst.remainingPrincipal) (hri : 0 ≤ inst.remainingInterest)
    (hS : 0 ≤ S) :
    (payInstallment inst (inst.remainingPrincipal + inst.remainingInterest + S)).1.paid
      = true ∧
    (payInstallment inst (inst.remainingPrincipal + inst.remainingInterest + S)).2.1
      = S ∧
    (payInstallment inst (inst.remainingPrincipal + inst.remainingInterest + S)).2.2.1
      = inst.remainingPrincipal ∧
    (payInstallment inst (inst.remainingPrincipal + inst.remainingInterest + S)).2.2.2
      = inst.remainingInterest := by
  unfold payInstallment
  dsimp only
  have hmin : min (inst.remainingPrincipal + inst.remainingInterest + S)
      inst.remainingPrincipal = inst.remainingPrincipal :=
    min_eq_right (by linarith)
  rw [hmin, sub_self, quantize2_zero]
  have harith : inst.remainingPrincipal + inst.remainingInterest + S -
      inst.remainingPrincipal = inst.remainingInterest + S := by ring
  rw [harith]
  by_cases hc : 0 < inst.remainingInterest + S
  · rw [if_pos hc]
    have hmin2 : min (inst.remainingInterest + S) inst.remainingInterest
        = inst.remainingInterest := min_eq_right (by linarith)
    rw [hmin2, sub_self, quantize2_zero]
    refine ⟨?_, ?_, ?_, ?_⟩ <;>
      first
        | rfl
        | rw [if_pos (by norm_num)]
        | (dsimp only; ring)
  · have hri0 : inst.remainingInterest = 0 := by linarith
    have hS0 : S = 0 := by linarith
    rw [if_neg hc]
    refine ⟨?_, ?_, ?_, ?_⟩ <;>
      first
        | rfl
        | rw [if_pos (by simp [hri0])]
        | (dsimp only; linarith)

/-- Phase 1, fed exactly the unpaid remaining total of an all-past-due
schedule with positive unpaid rows, clears every row, exhausts the funds and
pays exactly the total unpaid principal. -/
theorem payPastDue_clears (payDate : ℕ) :
    ∀ (sched : List Installment) (tp ti : ℚ),
      (∀ inst ∈ sched, inst.paid = false →
        inst.paymentDate < payDate ∧ 0 ≤ inst.remainingPrincipal ∧
        0 ≤ inst.remainingInterest ∧
        0 < inst.remainingPrincipal + inst.remainingInterest) →
      (∀ inst ∈ (payPastDue payDate sched (unpaidPI sched) tp ti).1,
        inst.paid = true) ∧
      (payPastDue payDate sched (unpaidPI sched) tp ti).2.1 = 0 ∧
      (payPastDue payDate sched (unpaidPI sched) tp ti).2.2.1 = tp + unpaidP sched := by
  intro sched
  induction sched with
  | nil =>
    intro tp ti _
    refine ⟨fun inst h => by simp [payPastDue] at h, rfl, by
      show _ = tp + unpaidP []
      simp [payPastDue, unpaidPI, unpaidP]⟩
  | cons h0 rest ih =>
    intro tp ti hall
    have hrest : ∀ inst ∈ rest, inst.paid = false →
        inst.paymentDate < payDate ∧ 0 ≤ inst.remainingPrincipal ∧
        0 ≤ inst.remainingInterest ∧
        0 < inst.remainingPrincipal + inst.remainingInterest :=
      fun i hi hp => hall i (by simp [hi]) hp
    have hSnn : 0 ≤ unpaidPI rest :=
      unpaidPI_nonneg rest fun i hi hp => le_of_lt (hrest i hi hp).2.2.2
    cases hp : h0.paid with
    | true =>
      have hcond : ¬ (h0.paymentDate < payDate ∧ h0.paid = false) := by
        simp [hp]
      have hPI : unpaidPI (h0 :: rest) = unpaidPI rest := by
        rw [unpaidPI_cons, if_pos hp, zero_add]
      have hP : unpaidP (h0 :: rest) = unpaidP rest := by
        rw [unpaidP_cons, if_pos hp, zero_add]
      simp only [payPastDue, if_neg hcond, hPI, hP]
      rcases ih tp ti hrest with ⟨hall2, hf, htp⟩
      refine ⟨?_, hf, htp⟩
      intro inst hmem
      rcases List.mem_cons.mp hmem with hmem | hmem
      · rw [hmem]; exact hp
      · exact hall2 inst hmem
    | false =>
      rcases hall h0 (by simp) hp with ⟨hdate, hrp, hri, hpos⟩
      have hcond : h0.paymentDate < payDate ∧ h0.paid = false := ⟨hdate, hp⟩
      have hPI : unpaidPI (h0 :: rest) =
          h0.remainingPrincipal + h0.remainingInterest + unpaidPI rest := by
        rw [unpaidPI_cons, if_neg (by simp [hp])]
      have hP : unpaidP (h0 :: rest) = h0.remainingPrincipal + unpaidP rest := by
        rw [unpaidP_cons, if_neg (by simp [hp])]
      rcases payInstallment_exact h0 (unpaidPI rest) hrp hri hSnn with
        ⟨hpaid2, hfunds3, hprin3, _⟩
      simp only [payPastDue, if_pos hcond, hPI, hfunds3, hprin3]
      by_cases hS0 : unpaidPI rest ≤ 0
      · have hSz : unpaidPI rest = 0 := le_antisymm hS0 hSnn
        rw [if_pos hS0]
        have hnoUnpaid : ∀ inst ∈ rest, inst.paid = true := by
          intro i hi
          by_contra hip
          have hipf : i.paid = false := by
            cases hq : i.paid
            · rfl
            · exact absurd hq hip
          -- a positive unpaid row contradicts the zero unpaid total
          have hpos2 := (hrest i hi hipf).2.2.2
          have hsplit : ∃ l1 l2, rest = l1 ++ i :: l2 := List.append_of_mem hi
          rcases hsplit with ⟨l1, l2, rfl⟩
          have hnn1 : 0 ≤ unpaidPI l1 :=
            unpaidPI_nonneg l1 fun j hj hjp =>
              le_of_lt (hrest j (by simp [hj]) hjp).2.2.2
          have hnn2 : 0 ≤ unpaidPI l2 :=
            unpaidPI_nonneg l2 fun j hj hjp =>
              le_of_lt (hrest j (by simp [hj]) hjp).2.2.2
          have hdecomp : unpaidPI (l1 ++ i :: l2) =
              unpaidPI l1 + (i.remainingPrincipal + i.remainingInterest) +
                unpaidPI l2 := by
            unfold unpaidPI
            rw [List.filter_append, List.map_append, List.sum_append,
              List.filter_cons]
            simp [hipf]
            ring
          rw [hdecomp] at hSz
          linarith
        have hPrest : unpaidP rest = 0 := by
          unfold unpaidP
          have hfe : rest.filter (fun i => !i.paid) = [] := by
            rw [List.filter_eq_nil_iff]
            intro a ha
            simp [hnoUnpaid a ha]
          rw [hfe]
          rfl
        refine ⟨?_, hSz, by rw [hP, hPrest]; ring⟩
        intro inst hmem
        rcases List.mem_cons.mp hmem with hmem | hmem
        · rw [hmem]; exact hpaid2
        · exact hnoUnpaid inst hmem
      · rw [if_neg hS0]
        rcases ih (tp + h0.remainingPrincipal)
            (ti + (payInstallment h0
              (h0.remainingPrincipal + h0.remainingInterest + unpaidPI rest)).2.2.2)
            hrest with ⟨hall2, hf, htp⟩
        refine ⟨?_, hf, by rw [htp, hP]; ring⟩
        intro inst hmem
        rcases List.mem_cons.mp hmem with hmem | hmem
        · rw [hmem]; exact hpaid2
        · exact hall2 inst hmem

theorem payCurrentNext_no_funds (payDate : ℕ) (sched : List Installment)
    (funds tp ti : ℚ) (h : funds ≤ 0) :
    payCurrentNext payDate sched funds tp ti = (sched, funds, tp, ti) := by
  unfold payCurrentNext
  cases hg : getNextInstallment payDate sched with
  | none => rfl
  | some v =>
    rcases v with ⟨i, inst⟩
    dsimp only
    rw [if_neg fun hc => absurd hc.2 (not_lt.mpr h)]

theorem payFuture_no_funds (payDate : ℕ) (sched : List Installment)
    (funds tp ti : ℚ) (h : ¬ 0 < funds) :
    payFuture payDate sched funds tp ti = (sched, tp, ti) := by
  unfold payFuture
  rw [if_neg h]

theorem fullRemaining_eq_unpaidPI (e : ExtensionProduct)
    (hsync : ∀ inst ∈ e.paymentSchedule, inst.paid = false →
      inst.remainingAmount = inst.remainingPrincipal + inst.remainingInterest) :
    fullRemainingBalance e = unpaidPI e.paymentSchedule := by
  unfold fullRemainingBalance unpaidPI
  congr 1
  apply List.map_congr_left
  intro a ha
  rcases List.mem_filter.mp ha with ⟨hmem, hp⟩
  exact hsync a hmem (by simpa using hp)

/-- C7 (amended): paying the full remaining balance (the sum of
`remaining_amount` over the unpaid installments) flips an ACTIVE extension to
PAID and zeroes `current_balance` *when every unpaid installment is past due
on the payment date* — with the unpaid rows carrying consistent non-negative
remainders with positive totals, and `current_balance` between 0 and the
total unpaid principal.  (On payment dates that leave an unpaid installment
in the current/next or future phases the original claim fails — see the
counterexample.) -/
theorem claim7_full_payment_on_past_due (e : ExtensionProduct) (payDate : ℕ)
    (hActive : e.status = "ACTIVE")
    (hsync : ∀ inst ∈ e.paymentSchedule, inst.paid = false →
      inst.remainingAmount = inst.remainingPrincipal + inst.remainingInterest)
    (hfields : ∀ inst ∈ e.paymentSchedule, inst.paid = false →
      0 ≤ inst.remainingPrincipal ∧ 0 ≤ inst.remainingInterest ∧
      0 < inst.remainingPrincipal + inst.remainingInterest)
    (hpast : ∀ inst ∈ e.paymentSchedule, inst.paid = false →
      inst.paymentDate < payDate)
    (hcb0 : 0 ≤ e.currentBalance)
    (hcb1 : e.currentBalance ≤ unpaidP e.paymentSchedule) :
    (makePayment e (fullRemainingBalance e) payDate).1.status = "PAID" ∧
    (makePayment e (fullRemainingBalance e) payDate).1.currentBalance = 0 := by
  have hfull : fullRemainingBalance e = unpaidPI e.paymentSchedule :=
    fullRemaining_eq_unpaidPI e hsync
  rcases payPastDue_clears payDate e.paymentSchedule 0 0
      (fun inst hmem hp =>
        ⟨hpast inst hmem hp, (hfields inst hmem hp).1, (hfields inst hmem hp).2.1,
         (hfields inst hmem hp).2.2⟩) with ⟨hallpaid, hfunds, htp⟩
  unfold makePayment
  dsimp only
  rw [hfull, hfunds, payCurrentNext_no_funds _ _ _ _ _ le_rfl]
  dsimp only
  rw [payFuture_no_funds _ _ _ _ _ (lt_irrefl 0)]
  dsimp only
  constructor
  · rw [if_pos (List.all_eq_true.mpr fun i hi => hallpaid i hi)]
  · rw [htp, zero_add]
    exact max_eq_left (by linarith)

/-- C7, witness for the amended theorem: a fresh 1-month 100.00 / 36%
extension paid in full (103.00) on 2025-03-01, after its single installment
(due 2025-02-15) has gone past due. -/
theorem claim7_witness :
    ((createExtension "W" 100 (mkDate 2025 1 15) 1 36).status = "ACTIVE") ∧
    (0 : ℚ) ≤ (createExtension "W" 100 (mkDate 2025 1 15) 1 36).currentBalance ∧
    (createExtension "W" 100 (mkDate 2025 1 15) 1 36).currentBalance ≤
      unpaidP (createExtension "W" 100 (mkDate 2025 1 15) 1 36).paymentSchedule ∧
    (makePayment (createExtension "W" 100 (mkDate 2025 1 15) 1 36)
        (fullRemainingBalance (createExtension "W" 100 (mkDate 2025 1 15) 1 36))
        (mkDate 2025 3 1)).1.status = "PAID" ∧
    (makePayment (createExtension "W" 100 (mkDate 2025 1 15) 1 36)
        (fullRemainingBalance (createExtension "W" 100 (mkDate 2025 1 15) 1 36))
        (mkDate 2025 3 1)).1.currentBalance = 0 :=
  ⟨by decide, by decide, by decide,
   (claim7_full_payment_on_past_due (createExtension "W" 100 (mkDate 2025 1 15) 1 36)
      (mkDate 2025 3 1) (by decide) (by decide) (by decide) (by decide) (by decide)
      (by decide)).1,
   (claim7_full_payment_on_past_due (createExtension "W" 100 (mkDate 2025 1 15) 1 36)
      (mkDate 2025 3 1) (by decide) (by decide) (by decide) (by decide) (by decide)
      (by decide)).2⟩

/-! ## Claim C9 -/

theorem genLoop_stmt_fields (txs : List Txn) (cs maxD : ℕ) :
    ∀ fuel cur prev, ∀ s ∈ (genLoop txs cs maxD fuel cur prev).1,
      s.purchasesAmount = some (sumKindInPeriod txs .PURCHASE s.startDate s.endDate) ∧
      s.refundsAmount = some (sumKindInPeriod txs .REFUND s.startDate s.endDate) ∧
      s.paymentsAmount = some (sumKindInPeriod txs .PAYMENT s.startDate s.endDate) ∧
      s.extensionsAmount = some (sumKindInPeriod txs .EXTENSION s.startDate s.endDate) ∧
      s.endingBalance = some (s.beginningBalance +
        sumKindInPeriod txs .PURCHASE s.startDate s.endDate -
        sumKindInPeriod txs .REFUND s.startDate s.endDate -
        sumKindInPeriod txs .PAYMENT s.startDate s.endDate -
        sumKindInPeriod txs .EXTENSION s.startDate s.endDate) := by
  intro fuel
  induction fuel with
  | zero => intro cur prev s hs; simp [genLoop] at hs
  | succ fuel ih =>
    intro cur prev s hs
    simp only [genLoop] at hs
    by_cases hc : cur ≤ maxD
    · rw [if_pos hc] at hs
      rcases List.mem_cons.mp hs with hs | hs
      · rw [hs]
        exact ⟨rfl, rfl, rfl, rfl, rfl⟩
      · exact ih _ _ s hs
    · rw [if_neg hc] at hs
      simp at hs

/-- The beginning balance dictated by the loop accumulator: the previous
statement's ending balance, or the first-statement anchor when none. -/
def prevAnchor (txs : List Txn) (startDate : ℕ) : Option ℚ → ℚ
  | some b => b
  | none => firstBeginning txs startDate

/-- The beginning-balance chain: each statement's beginning balance comes
from the accumulator (the previous statement's ending balance, or the
first-statement anchor when there is none). -/
def chainedFrom (txs : List Txn) : Option ℚ → List Stmt → Prop
  | _, [] => True
  | prev, s :: rest =>
    s.beginningBalance = prevAnchor txs s.startDate prev ∧
    chainedFrom txs s.endingBalance rest

theorem genLoop_chained (txs : List Txn) (cs maxD : ℕ) :
    ∀ fuel cur prev, chainedFrom txs prev (genLoop txs cs maxD fuel cur prev).1 := by
  intro fuel
  induction fuel with
  | zero => intro cur prev; exact trivial
  | succ fuel ih =>
    intro cur prev
    simp only [genLoop]
    by_cases hc : cur ≤ maxD
    · rw [if_pos hc]
      refine ⟨?_, ?_⟩
      · cases prev <;> rfl
      · exact ih _ _
    · rw [if_neg hc]
      exact trivial

theorem chainedFrom_head (txs : List Txn) (l : List Stmt) (prev : Option ℚ)
    (hch : chainedFrom txs prev l) :
    ∀ s, l.get? 0 = some s →
      s.beginningBalance = prevAnchor txs s.startDate prev := by
  cases l with
  | nil => intro s h; simp at h
  | cons s0 rest =>
    intro s h
    simp only [List.get?] at h
    injection h with h
    subst h
    simp only [chainedFrom] at hch
    exact hch.1

theorem chainedFrom_pair (txs : List Txn) :
    ∀ (l : List Stmt) (prev : Option ℚ), chainedFrom txs prev l →
      ∀ j sprev snext, l.get? j = some sprev → l.get? (j + 1) = some snext →
        snext.beginningBalance =
          prevAnchor txs snext.startDate sprev.endingBalance := by
  intro l
  induction l with
  | nil => intro prev _ j sprev snext h1 _; simp at h1
  | cons s rest ih =>
    intro prev hch j sprev snext h1 h2
    simp only [chainedFrom] at hch
    match j with
    | 0 =>
      simp only [List.get?] at h1 h2
      injection h1 with h1
      subst h1
      exact chainedFrom_head txs rest _ hch.2 snext h2
    | j + 1 =>
      simp only [List.get?] at h1 h2
      exact ih _ hch.2 j sprev snext h1 h2

theorem updateBalanceDueFrom_get? :
    ∀ (l : List Stmt) (j i : ℕ),
      (updateBalanceDueFrom j l).get? i = (l.get? i).map (fun s =>
        if j + i = 0 then s
        else { s with balanceDue := if s.beginningBalance < 0 then 0
                                    else s.beginningBalance }) := by
  intro l
  induction l with
  | nil => intro j i; simp [updateBalanceDueFrom]
  | cons s rest ih =>
    intro j i
    match i with
    | 0 =>
      simp only [updateBalanceDueFrom, List.get?, Nat.add_zero]
      rfl
    | i + 1 =>
      simp only [updateBalanceDueFrom, List.get?]
      rw [ih (j + 1) i]
      have hidx : j + 1 + i = j + (i + 1) := by omega
      rw [hidx]

theorem updateBalanceDue_fields (l : List Stmt) (i : ℕ) (s2 : Stmt)
    (h : (updateBalanceDue l).get? i = some s2) :
    ∃ s, l.get? i = some s ∧ s2.beginningBalance = s.beginningBalance ∧
      s2.endingBalance = s.endingBalance ∧ s2.startDate = s.startDate ∧
      s2.endDate = s.endDate ∧ s2.purchasesAmount = s.purchasesAmount ∧
      s2.refundsAmount = s.refundsAmount ∧ s2.paymentsAmount = s.paymentsAmount ∧
      s2.extensionsAmount = s.extensionsAmount := by
  unfold updateBalanceDue at h
  rw [updateBalanceDueFrom_get? l 0 i] at h
  cases hg : l.get? i with
  | none => rw [hg] at h; simp at h
  | some s =>
    rw [hg] at h
    have h : some (if 0 + i = 0 then s
        else { s with balanceDue := if s.beginningBalance < 0 then 0
                                    else s.beginningBalance }) = some s2 := h
    injection h with h
    refine ⟨s, rfl, ?_⟩
    by_cases hz : 0 + i = 0
    · rw [if_pos hz] at h
      rw [← h]
      exact ⟨rfl, rfl, rfl, rfl, rfl, rfl, rfl, rfl⟩
    · rw [if_neg hz] at h
      rw [← h]
      exact ⟨rfl, rfl, rfl, rfl, rfl, rfl, rfl, rfl⟩

theorem updateBalanceDueFrom_length :
    ∀ (l : List Stmt) (j : ℕ), (updateBalanceDueFrom j l).length = l.length := by
  intro l
  induction l with
  | nil => intro j; rfl
  | cons s rest ih => intro j; simp [updateBalanceDueFrom, ih]

/-- The generated statement list's closed rows (every row except the trailing
open one) satisfy the per-kind aggregate equations, the ending-balance
formula, and the beginning-balance chaining of claim C9. -/
theorem generateStatements_closed_spec (txs : List Txn) (cs : ℕ) (i : ℕ) (s : Stmt)
    (hi : i + 1 < (generateStatements txs cs).length)
    (hs : (generateStatements txs cs).get? i = some s) :
    s.purchasesAmount = some (sumKindInPeriod txs .PURCHASE s.startDate s.endDate) ∧
    s.refundsAmount = some (sumKindInPeriod txs .REFUND s.startDate s.endDate) ∧
    s.paymentsAmount = some (sumKindInPeriod txs .PAYMENT s.startDate s.endDate) ∧
    s.extensionsAmount = some (sumKindInPeriod txs .EXTENSION s.startDate s.endDate) ∧
    s.endingBalance = some (s.beginningBalance +
      sumKindInPeriod txs .PURCHASE s.startDate s.endDate -
      sumKindInPeriod txs .REFUND s.startDate s.endDate -
      sumKindInPeriod txs .PAYMENT s.startDate s.endDate -
      sumKindInPeriod txs .EXTENSION s.startDate s.endDate) ∧
    (i = 0 → s.beginningBalance = firstBeginning txs s.startDate) ∧
    (∀ j sprev, i = j + 1 → (generateStatements txs cs).get? j = some sprev →
      s.beginningBalance = sprev.endingBalance.getD 0) := by
  have hne : txs ≠ [] := by
    intro h
    rw [h] at hi
    simp [generateStatements] at hi
  obtain ⟨t0, ts, htx⟩ := List.exists_cons_of_ne_nil hne
  · have hexp : generateStatements txs cs =
        updateBalanceDue (appendOpenStmt cs
          (genLoop txs cs
            ((List.map (fun t => t.effectiveDate) ts).foldl max t0.effectiveDate)
            ((List.map (fun t => t.effectiveDate) ts).foldl max t0.effectiveDate + 1 -
              initialCycleStart cs
                ((List.map (fun t => t.effectiveDate) ts).foldl min t0.effectiveDate))
            (initialCycleStart cs
              ((List.map (fun t => t.effectiveDate) ts).foldl min t0.effectiveDate))
            none).2
          (genLoop txs cs
            ((List.map (fun t => t.effectiveDate) ts).foldl max t0.effectiveDate)
            ((List.map (fun t => t.effectiveDate) ts).foldl max t0.effectiveDate + 1 -
              initialCycleStart cs
                ((List.map (fun t => t.effectiveDate) ts).foldl min t0.effectiveDate))
            (initialCycleStart cs
              ((List.map (fun t => t.effectiveDate) ts).foldl min t0.effectiveDate))
            none).1) := by
      rw [htx]
      rfl
    rcases hglc : (genLoop txs cs
        ((List.map (fun t => t.effectiveDate) ts).foldl max t0.effectiveDate)
        ((List.map (fun t => t.effectiveDate) ts).foldl max t0.effectiveDate + 1 -
          initialCycleStart cs
            ((List.map (fun t => t.effectiveDate) ts).foldl min t0.effectiveDate))
        (initialCycleStart cs
          ((List.map (fun t => t.effectiveDate) ts).foldl min t0.effectiveDate))
        none) with ⟨closed, ns⟩
    rw [hglc] at hexp
    dsimp only at hexp
    have hfieldsAll : ∀ x ∈ closed,
        x.purchasesAmount = some (sumKindInPeriod txs .PURCHASE x.startDate x.endDate) ∧
        x.refundsAmount = some (sumKindInPeriod txs .REFUND x.startDate x.endDate) ∧
        x.paymentsAmount = some (sumKindInPeriod txs .PAYMENT x.startDate x.endDate) ∧
        x.extensionsAmount = some (sumKindInPeriod txs .EXTENSION x.startDate x.endDate) ∧
        x.endingBalance = some (x.beginningBalance +
          sumKindInPeriod txs .PURCHASE x.startDate x.endDate -
          sumKindInPeriod txs .REFUND x.startDate x.endDate -
          sumKindInPeriod txs .PAYMENT x.startDate x.endDate -
          sumKindInPeriod txs .EXTENSION x.startDate x.endDate) := by
      intro x hx
      have := genLoop_stmt_fields txs cs _ _ _ _ x (by rw [hglc]; exact hx)
      exact this
    have hchain : chainedFrom txs none closed := by
      have h := genLoop_chained txs cs
        ((List.map (fun t => t.effectiveDate) ts).foldl max t0.effectiveDate)
        ((List.map (fun t => t.effectiveDate) ts).foldl max t0.effectiveDate + 1 -
          initialCycleStart cs
            ((List.map (fun t => t.effectiveDate) ts).foldl min t0.effectiveDate))
        (initialCycleStart cs
          ((List.map (fun t => t.effectiveDate) ts).foldl min t0.effectiveDate))
        none
      rw [hglc] at h
      exact h
    rw [hexp] at hi hs
    -- the row at i, before the balance-due pass
    rcases updateBalanceDue_fields _ i s hs with
      ⟨s0, hs0, hbeg, hend, hstart, hendd, hpur, href, hpay, hext⟩
    unfold updateBalanceDue at hi
    rw [updateBalanceDueFrom_length] at hi
    -- the open statement sits past every index we touch
    have hform : appendOpenStmt cs ns closed = closed ∨
        ∃ x, appendOpenStmt cs ns closed = closed ++ [x] := by
      unfold appendOpenStmt
      cases closed.getLast? with
      | none => exact Or.inl rfl
      | some last => exact Or.inr ⟨_, rfl⟩
    have hclosed_get : ∀ k, k + 1 < (appendOpenStmt cs ns closed).length →
        (appendOpenStmt cs ns closed).get? k = closed.get? k := by
      intro k hk
      rcases hform with hf | ⟨x, hf⟩
      · rw [hf]
      · rw [hf] at hk ⊢
        rw [List.length_append] at hk
        exact List.get?_append (by simp at hk; omega)
    have hs0c : closed.get? i = some s0 := by
      rw [← hclosed_get i hi]
      exact hs0
    have hmem : s0 ∈ closed := List.get?_mem hs0c
    rcases hfieldsAll s0 hmem with ⟨h1, h2, h3, h4, h5⟩
    refine ⟨?_, ?_, ?_, ?_, ?_, ?_, ?_⟩
    · rw [hpur, hstart, hendd]; exact h1
    · rw [href, hstart, hendd]; exact h2
    · rw [hpay, hstart, hendd]; exact h3
    · rw [hext, hstart, hendd]; exact h4
    · rw [hend, hbeg, hstart, hendd]; exact h5
    · intro hi0
      subst hi0
      have := chainedFrom_head txs closed none hchain s0 hs0c
      rw [hbeg, hstart]
      exact this
    · intro j sprev hij hsprev
      subst hij
      rw [hexp] at hsprev
      rcases updateBalanceDue_fields _ j sprev hsprev with
        ⟨sp0, hsp0, hpbeg, hpend, _, _, _, _, _, _⟩
      have hsp0c : closed.get? j = some sp0 := by
        rw [← hclosed_get j (by omega)]
        exact hsp0
      have hpmem : sp0 ∈ closed := List.get?_mem hsp0c
      have hpend2 := (hfieldsAll sp0 hpmem).2.2.2.2
      have := chainedFrom_pair txs closed none hchain j sp0 s0 hsp0c hs0c
      rw [hbeg, hpend, hpend2]
      rw [hpend2] at this
      simpa using this

/-- C9: after every ledger append, every closed statement satisfies
`ending = beginning + purchases − refunds − payments − extensions` with the
per-kind sums taken over the transactions effective in `[start, end]`, its
beginning balance equals the previous statement's ending balance, and the
first statement's beginning balance is the running balance of the last
transaction strictly before its cycle start (0 if none). -/
theorem claim9_statement_invariants (st : SimState) (kind : TxKind) (amount : ℚ)
    (eff created : ℕ) (i : ℕ) (s : Stmt)
    (hi : i + 1 < (addTransaction st kind amount eff created).statements.length)
    (hs : (addTransaction st kind amount eff created).statements.get? i = some s) :
    s.purchasesAmount = some (sumKindInPeriod
      (addTransaction st kind amount eff created).transactions .PURCHASE
      s.startDate s.endDate) ∧
    s.refundsAmount = some (sumKindInPeriod
      (addTransaction st kind amount eff created).transactions .REFUND
      s.startDate s.endDate) ∧
    s.paymentsAmount = some (sumKindInPeriod
      (addTransaction st kind amount eff created).transactions .PAYMENT
      s.startDate s.endDate) ∧
    s.extensionsAmount = some (sumKindInPeriod
      (addTransaction st kind amount eff created).transactions .EXTENSION
      s.startDate s.endDate) ∧
    s.endingBalance = some (s.beginningBalance +
      sumKindInPeriod (addTransaction st kind amount eff created).transactions
        .PURCHASE s.startDate s.endDate -
      sumKindInPeriod (addTransaction st kind amount eff created).transactions
        .REFUND s.startDate s.endDate -
      sumKindInPeriod (addTransaction st kind amount eff created).transactions
        .PAYMENT s.startDate s.endDate -
      sumKindInPeriod (addTransaction st kind amount eff created).transactions
        .EXTENSION s.startDate s.endDate) ∧
    (i = 0 → s.beginningBalance = firstBeginning
      (addTransaction st kind amount eff created).transactions s.startDate) ∧
    (∀ j sprev, i = j + 1 →
      (addTransaction st kind amount eff created).statements.get? j = some sprev →
      s.beginningBalance = sprev.endingBalance.getD 0) :=
  generateStatements_closed_spec
    (recalcBalance (sortTxns (st.transactions ++
      [Txn.mk kind kind.direction amount eff created 0])))
    st.statementCycleStart i s hi hs

/-- C9, witness: the closed December-anchored statement produced by a single
January purchase (cycle anchor 3). -/
theorem claim9_witness :
    (0 + 1 < (addTransaction (SimState.init 3) .PURCHASE 100 (mkDate 2025 1 5)
      (mkDate 2025 1 5)).statements.length) ∧
    ((addTransaction (SimState.init 3) .PURCHASE 100 (mkDate 2025 1 5)
      (mkDate 2025 1 5)).statements.get? 0 =
      some (Stmt.mk (mkDate 2024 12 3) (mkDate 2025 1 2) (mkDate 2025 1 3) 0
        (some 0) (some 0) (some 0) (some 0) (some 0) 0)) ∧
    (Stmt.mk (mkDate 2024 12 3) (mkDate 2025 1 2) (mkDate 2025 1 3) 0
        (some 0) (some 0) (some 0) (some 0) (some 0) 0).endingBalance =
      some ((Stmt.mk (mkDate 2024 12 3) (mkDate 2025 1 2) (mkDate 2025 1 3) 0
          (some 0) (some 0) (some 0) (some 0) (some 0) 0).beginningBalance +
        sumKindInPeriod (addTransaction (SimState.init 3) .PURCHASE 100
            (mkDate 2025 1 5) (mkDate 2025 1 5)).transactions .PURCHASE
          (mkDate 2024 12 3) (mkDate 2025 1 2) -
        sumKindInPeriod (addTransaction (SimState.init 3) .PURCHASE 100
            (mkDate 2025 1 5) (mkDate 2025 1 5)).transactions .REFUND
          (mkDate 2024 12 3) (mkDate 2025 1 2) -
        sumKindInPeriod (addTransaction (SimState.init 3) .PURCHASE 100
            (mkDate 2025 1 5) (mkDate 2025 1 5)).transactions .PAYMENT
          (mkDate 2024 12 3) (mkDate 2025 1 2) -
        sumKindInPeriod (addTransaction (SimState.init 3) .PURCHASE 100
            (mkDate 2025 1 5) (mkDate 2025 1 5)).transactions .EXTENSION
          (mkDate 2024 12 3) (mkDate 2025 1 2)) :=
  ⟨by decide, by decide,
   (claim9_statement_invariants (SimState.init 3) .PURCHASE 100 (mkDate 2025 1 5)
      (mkDate 2025 1 5) 0
      (Stmt.mk (mkDate 2024 12 3) (mkDate 2025 1 2) (mkDate 2025 1 3) 0
        (some 0) (some 0) (some 0) (some 0) (some 0) 0)
      (by decide) (by decide)).2.2.2.2.1⟩

end CardProduct
